import Mathlib

/-!
# Verification of the velecs-ecs transform hierarchy, destruction pipeline and scheduler

Shallow embedding of the C++ sources of `velecs-ecs` (namespace `velecs::ecs`):

* `src/src/components/Transform.cpp` / `src/include/velecs/ecs/components/Transform.hpp`:
  the `Transform` component (parent/children links, sibling ordering, dirty-flag
  matrix caching, lazy pre/post-order traversal iterators);
* `src/src/Scene.cpp` / `src/include/velecs/ecs/Scene.hpp`: `Scene::ProcessEntityCleanup`
  and `Scene::TryAddSystem`;
* `src/include/velecs/ecs/Entity.hpp`: `Entity::operator==` / `Entity::operator!=`.

Entities are modelled by numeric identifiers (`EId`), the `Entity*` pointers of the
C++ code by `Option EId` (`none` = `nullptr`; a dangling pointer is a `some` whose
id is no longer in the scene's `valid` list).  The EnTT registry state relevant to
the claims is collected in one record `S`.  Vector/quaternion/matrix algebra is an
external collaborator of the library, so `Mat4` is embedded as the free term
algebra over the operations the sources apply (`Mat4::FromPosition`,
`Mat4::FromScale`, `Quat::ToMatrix`, `operator*`): two matrix computations are
equal exactly when the source performed the same algebraic composition.

Recursive C++ procedures (`SetWorldDirty`, `GetWorldMatrix`, the traversal
iterators, `GetRoot`) take a fuel argument; `none` models non-termination /
stack overflow of the corresponding unbounded C++ recursion.
-/

namespace VelecsEcs

/-- Entity identifier (models an `Entity*` / EnTT row identity). -/
abbrev EId := Nat

/-- `velecs::math::Vec3`, opaque value type of the external math collaborator. -/
structure Vec3 where
  x : Int
  y : Int
  z : Int
deriving DecidableEq, Repr

/-- `velecs::math::Quat`, opaque value type of the external math collaborator. -/
structure Quat where
  w : Int
  x : Int
  y : Int
  z : Int
deriving DecidableEq, Repr

/-- `velecs::math::Mat4` as the free algebra over the operations the embedded
sources use: `Mat4::IDENTITY`, `Mat4::FromPosition`, `Mat4::FromScale`,
`Quat::ToMatrix`, and matrix multiplication. -/
inductive Mat4 where
  | identity : Mat4
  | fromPosition : Vec3 → Mat4
  | fromScale : Vec3 → Mat4
  | rotToMatrix : Quat → Mat4
  | mul : Mat4 → Mat4 → Mat4
deriving DecidableEq, Repr

/-- The per-scene state visible to the embedded operations: the set of valid
(live) EnTT rows, each entity's owning scene, and the fields of its `Transform`
component (`pos`, `scale`, `rot`, `_parent`, `_children`, the two dirty flags
and cached matrices), plus the set of `DestroyTag`-bearing entities. -/
structure S where
  valid : List EId
  sceneOf : EId → Nat
  parent : EId → Option EId
  children : EId → List EId
  pos : EId → Vec3
  scale : EId → Vec3
  rot : EId → Quat
  modelDirty : EId → Bool
  worldDirty : EId → Bool
  cachedModel : EId → Mat4
  cachedWorld : EId → Mat4
  tags : List EId

/-- Point update of a function at one entity id. -/
def upd {α : Type} (f : EId → α) (e : EId) (v : α) : EId → α :=
  fun x => if x = e then v else f x

@[simp] theorem upd_same {α : Type} (f : EId → α) (e : EId) (v : α) : upd f e v e = v := by
  simp [upd]

@[simp] theorem upd_other {α : Type} (f : EId → α) (e x : EId) (v : α) (h : x ≠ e) :
    upd f e v x = f x := by
  simp [upd, h]

/-! ## `Transform::SetWorldDirty` (Transform.cpp lines 300-307)

```cpp
void Transform::SetWorldDirty()
{
    isWorldDirty = true;
    for (const Entity* child : _children)
    {
        if (child->IsValid()) child->GetTransform().SetWorldDirty();
    }
}
```
The C++ recursion is unbounded; fuel bounds the recursion depth and `none`
models the stack overflow of an unbounded descent. -/

/-- One recursion level: mark `e` world-dirty, then recurse (via `f`) into each
valid child. -/
def swdKids (f : EId → S → Option S) : List EId → S → Option S
  | [], s => some s
  | c :: cs, s =>
    if c ∈ s.valid then
      match f c s with
      | none => none
      | some s' => swdKids f cs s'
    else swdKids f cs s

/-- `Transform::SetWorldDirty`, fuel-bounded. -/
def setWorldDirty : Nat → EId → S → Option S
  | 0, _, _ => none
  | n + 1, e, s =>
    let s1 : S := { s with worldDirty := upd s.worldDirty e true }
    swdKids (setWorldDirty n) (s1.children e) s1

/-- `Transform::SetDirty` (Transform.cpp lines 309-313): mark the model matrix
dirty, then propagate world-dirtiness through the subtree. -/
def setDirty (n : Nat) (e : EId) (s : S) : Option S :=
  setWorldDirty n e { s with modelDirty := upd s.modelDirty e true }

/-! ## `Transform::TrySetParent` (Transform.cpp lines 90-133) -/

/-- The "remove from current parent's children list" step of `TrySetParent`
(Transform.cpp lines 105-114): erase all occurrences of the owner, but only
when the old parent pointer is non-null and valid. -/
def unlinkOld (e : EId) (s : S) : S :=
  match s.parent e with
  | some op =>
    if op ∈ s.valid then
      { s with children := upd s.children op ((s.children op).filter (· ≠ e)) }
    else s
  | none => s

/-- The mutation phase of `TrySetParent` once all guards have passed: unlink
from the old parent, assign `_parent`, and `push_back` into the new parent's
children unless already present. -/
def linkPhase (e p : EId) (s : S) : S :=
  let s2 : S := { unlinkOld e s with parent := upd (unlinkOld e s).parent e (some p) }
  if p ∈ s2.valid then
    if e ∈ s2.children p then s2
    else { s2 with children := upd s2.children p (s2.children p ++ [e]) }
  else s2

/-- `Transform::TrySetParent`, called on the transform of entity `e` with
argument `np` (`none` = `nullptr`).  Mirrors the source line by line:
null/invalid guard, same-scene guard, `HasParent` no-op, then the mutation
phase followed by the final `SetWorldDirty()`. -/
def trySetParent (n : Nat) (e : EId) (np : Option EId) (s : S) : Option (Bool × S) :=
  match np with
  | none => some (false, s)
  | some p =>
    if p ∉ s.valid then some (false, s)
    else if s.sceneOf e ≠ s.sceneOf p then some (false, s)
    else if s.parent e = some p then some (true, s)
    else (setWorldDirty n e (linkPhase e p s)).map (fun s4 => (true, s4))

/-- `Transform::TryAddChild` (Transform.cpp lines 146-155), called on the
transform of `self` with child argument `child`.  The inner `TrySetParent`
result is discarded by the source. -/
def tryAddChild (n : Nat) (self child : EId) (s : S) : Option (Bool × S) :=
  if child ∉ s.valid ∨ child = self then some (false, s)
  else (trySetParent n child (some self) s).map (fun r => (true, r.2))

/-- `Transform::TryRemoveChild` (Transform.cpp lines 157-171): find `child` in
`_children`; if absent return false, otherwise delegate to
`child.TrySetParent(nullptr)` (whose result the source discards) and return
true. -/
def tryRemoveChild (n : Nat) (self child : EId) (s : S) : Option (Bool × S) :=
  if child ∉ s.children self then some (false, s)
  else if child ∈ s.valid then
    (trySetParent n child none s).map (fun r => (true, r.2))
  else some (true, s)

/-! ## Sibling management (Transform.cpp lines 189-237) and `GetRoot` (266-274)

All four functions guard with `_parent->IsValid()` *without* a preceding null
check, so on a root transform (`_parent == nullptr`) they dereference a null
pointer.  The embedding makes the dereference explicit: `HErr.nullDeref` is the
null dereference, `HErr.corruption` the `std::runtime_error` thrown by
`TrySetSiblingIndex` on hierarchy corruption. -/

/-- Abnormal outcomes of the sibling-management functions. -/
inductive HErr where
  | nullDeref : HErr
  | corruption : HErr
deriving DecidableEq, Repr

/-- `Transform::GetSiblingIndex` (lines 189-197): `std::find` over the parent's
children, returning the distance when found and 0 otherwise. -/
def getSiblingIndex (e : EId) (s : S) : Except HErr Nat :=
  match s.parent e with
  | none => .error .nullDeref
  | some p =>
    if p ∉ s.valid then .ok 0
    else
      let siblings := s.children p
      .ok (if e ∈ siblings then siblings.indexOf e else 0)

/-- `Transform::TrySetSiblingIndex` (lines 199-226): erase the entity from its
parent's children and re-insert it at `min index siblings.size()` (the size
after the erase); throw `std::runtime_error` when the entity claims a parent
but is absent from that parent's children list. -/
def trySetSiblingIndex (e : EId) (index : Nat) (s : S) : Except HErr (Bool × S) :=
  match s.parent e with
  | none => .error .nullDeref
  | some p =>
    if p ∉ s.valid then .ok (false, s)
    else
      let siblings := s.children p
      if e ∈ siblings then
        let siblings' := siblings.erase e
        let clamped := min index siblings'.length
        .ok (true, { s with children := upd s.children p (siblings'.insertIdx clamped e) })
      else .error .corruption

/-- `Transform::TrySetAsLastSibling` (lines 233-237). -/
def trySetAsLastSibling (e : EId) (s : S) : Except HErr (Bool × S) :=
  match s.parent e with
  | none => .error .nullDeref
  | some p =>
    if p ∉ s.valid then .ok (false, s)
    else trySetSiblingIndex e (s.children p).length s

/-- `Transform::GetRoot` (lines 266-274): walk `_parent` while it `IsValid()`;
each loop test dereferences `_parent`.  Fuel bounds the walk (`none` = the loop
ran out of fuel, impossible on well-founded chains). -/
def getRoot : Nat → EId → S → Option (Except HErr EId)
  | 0, _, _ => none
  | n + 1, cur, s =>
    match s.parent cur with
    | none => some (.error .nullDeref)
    | some p => if p ∈ s.valid then getRoot n p s else some (.ok cur)

/-! ## Matrix caching (Transform.cpp lines 70-88 and 284-313) -/

/-- `Transform::CalculateModel` (lines 284-291): `T * R * S`. -/
def calcModel (e : EId) (s : S) : Mat4 :=
  .mul (.mul (.fromPosition (s.pos e)) (.rotToMatrix (s.rot e))) (.fromScale (s.scale e))

/-- `Transform::GetModelMatrix` (lines 70-78): return the cache, recomputing
(and clearing the flag) only when `isModelDirty`. -/
def getModelMatrix (e : EId) (s : S) : Mat4 × S :=
  if s.modelDirty e then
    let m := calcModel e s
    (m, { s with cachedModel := upd s.cachedModel e m, modelDirty := upd s.modelDirty e false })
  else (s.cachedModel e, s)

/-- `Transform::GetWorldMatrix` (lines 80-88) with `CalculateWorld`
(lines 293-298) inlined: when `isWorldDirty`, recompute as
`_parent->GetTransform().GetWorldMatrix() * GetModelMatrix()` (the null-parent
branch returns `GetModelMatrix()` alone), store into the cache and clear the
flag; otherwise return the cache untouched.  Fuel bounds the recursion up the
parent chain. -/
def getWorldMatrix : Nat → EId → S → Option (Mat4 × S)
  | 0, _, _ => none
  | n + 1, e, s =>
    if s.worldDirty e then
      match s.parent e with
      | none =>
        let (m, s1) := getModelMatrix e s
        some (m, { s1 with cachedWorld := upd s1.cachedWorld e m,
                           worldDirty := upd s1.worldDirty e false })
      | some p =>
        match getWorldMatrix n p s with
        | none => none
        | some (pw, s1) =>
          let (m, s2) := getModelMatrix e s1
          let w := Mat4.mul pw m
          some (w, { s2 with cachedWorld := upd s2.cachedWorld e w,
                             worldDirty := upd s2.worldDirty e false })
    else some (s.cachedWorld e, s)

/-- The fully recomputed world matrix of the spec ("`world = parent.world ·
model`, root: `world = model`"), used to state that a cached value is up to
date.  Pure: reads only `parent` and the TRS fields. -/
def trueWorld : Nat → EId → S → Option Mat4
  | 0, _, _ => none
  | n + 1, e, s =>
    match s.parent e with
    | none => some (calcModel e s)
    | some p => (trueWorld n p s).map (fun pw => .mul pw (calcModel e s))

/-- `Transform::SetPos` (lines 20-24): assign, then `SetDirty()`. -/
def setPos (n : Nat) (e : EId) (v : Vec3) (s : S) : Option S :=
  setDirty n e { s with pos := upd s.pos e v }

/-- `Transform::SetScale` (lines 31-35). -/
def setScale (n : Nat) (e : EId) (v : Vec3) (s : S) : Option S :=
  setDirty n e { s with scale := upd s.scale e v }

/-- `Transform::SetRot` (lines 64-68). -/
def setRot (n : Nat) (e : EId) (q : Quat) (s : S) : Option S :=
  setDirty n e { s with rot := upd s.rot e q }

/-! ## Traversal iterators (components/Transform.hpp lines 388-484)

Both iterators are driven by an explicit stack of `Entity*`; the post-order one
additionally keeps a visited set distinguishing "children queued" from "ready
to yield".  The embeddings run the iterator loop to completion, collecting the
yielded sequence; the head of the `stack` list is the stack top, and pushing
the children in reverse source order (rbegin → rend) leaves the leftmost child
on top, i.e. at the head. -/

/-- `TraversalIterator<PreOrder>`: pop, yield, push children right-to-left. -/
def preOrderRun : Nat → List EId → List EId → S → Option (List EId)
  | 0, _, _, _ => none
  | _ + 1, [], acc, _ => some acc
  | n + 1, top :: rest, acc, s => preOrderRun n (s.children top ++ rest) (acc ++ [top]) s

/-- `TraversalIterator<PostOrder>` (`AdvanceToNextPostOrderNode`): a node whose
children are already queued (it is in the visited set) yields and pops; a node
with no children yields immediately; otherwise its children are pushed above it
and it is marked visited. -/
def postOrderRun : Nat → List EId → List EId → List EId → S → Option (List EId)
  | 0, _, _, _, _ => none
  | _ + 1, [], _, acc, _ => some acc
  | n + 1, top :: rest, visited, acc, s =>
    if top ∈ visited then postOrderRun n rest visited (acc ++ [top]) s
    else
      let kids := s.children top
      if kids.isEmpty then postOrderRun n rest (top :: visited) (acc ++ [top]) s
      else postOrderRun n (kids ++ top :: rest) (top :: visited) acc s

/-! ## Destruction pipeline (Scene.cpp lines 100-104 and 136-160) -/

/-- `Scene::DestroyEntity`: no-op on an invalid entity, otherwise
`registry.destroy(handle)` — the row and all its components (including any
`DestroyTag`) disappear; pointers held elsewhere dangle. -/
def destroyEntity (e : EId) (s : S) : S :=
  if e ∈ s.valid then
    { s with valid := s.valid.filter (· ≠ e), tags := s.tags.filter (· ≠ e) }
  else s

/-- The per-root body of `Scene::ProcessEntityCleanup`'s loop: post-order
sequence of the root's subtree, then for each visited entity — with the
attempted `TrySetParent(nullptr)` detach for the root itself — destroy the row.
The C++ interleaves destruction with the lazy iterator, but the iterator reads
each node's children list before that node or any of its descendants is
destroyed, so the yielded sequence equals the post-order sequence of the state
at loop entry. -/
def cleanupRoot (n : Nat) (r : EId) (s : S) : Option S :=
  if r ∉ s.valid then some s
  else
    match postOrderRun n [r] [] [] s with
    | none => none
    | some seq =>
      some (seq.foldl (fun st x =>
        let st1 :=
          if x = r then
            match trySetParent n x none st with
            | some r' => r'.2
            | none => st
          else st
        destroyEntity x st1) s)

/-- `Scene::ProcessEntityCleanup` (lines 136-160): snapshot the
`DestroyTag`-bearing entities, then run the destruction loop for each
still-valid snapshot entry. -/
def processEntityCleanup (n : Nat) (s : S) : Option S :=
  s.tags.foldlM (fun st r => cleanupRoot n r st) s

/-! ## `Entity::operator==` / `Entity::operator!=` (Entity.hpp lines 90-98) -/

/-- The identity fields of `Entity`: `Scene* _scene` (pointer value) and the
EnTT handle. -/
structure CEntity where
  scene : Nat
  handle : Nat
deriving DecidableEq, Repr

/-- `Entity::operator==` (line 93): `_scene == other._scene && _handle == other._handle`. -/
def entityEq (a b : CEntity) : Bool :=
  a.scene == b.scene && a.handle == b.handle

/-- `Entity::operator!=` (line 98): `_scene != other._scene && _handle != other._handle`. -/
def entityNe (a b : CEntity) : Bool :=
  a.scene != b.scene && a.handle != b.handle

/-! ## `Scene::TryAddSystem` (Scene.hpp lines 528-547 / Scene.inl lines 248-267) -/

/-- The scheduler state: `_systems` (the type-id → instance map, here type-id →
`executionOrder` since only the order is observable to the claim) and
`_systemsIterator` (the order-sorted vector of type ids). -/
structure Sched where
  systems : List (Nat × Int)
  iter : List Nat
deriving DecidableEq, Repr

/-- `_systems.at(id)->GetExecutionOrder()`. -/
def orderOf (l : List (Nat × Int)) (id : Nat) : Int :=
  ((l.find? (fun kv => kv.1 == id)).map (fun kv => kv.2)).getD 0

/-- `std::lower_bound` + `insert` on the order-sorted `_systemsIterator`: the
new id is inserted before the first entry whose execution order is not less
than its own.  (On the sorted vectors maintained by `TryAddSystem`, binary
`std::lower_bound` returns exactly this first-not-less position.) -/
def lbInsert (ord : Nat → Int) : List Nat → Nat → List Nat
  | [], id => [id]
  | a :: rest, id =>
    if ord a < ord id then a :: lbInsert ord rest id else id :: a :: rest

/-- `Scene::TryAddSystem`: false without mutation when the type id is already
registered; otherwise emplace into the map and sorted-insert into the iterator
vector via `std::lower_bound` on `GetExecutionOrder()`. -/
def tryAddSystem (id : Nat) (ord : Int) (s : Sched) : Bool × Sched :=
  if s.systems.any (fun kv => kv.1 == id) then (false, s)
  else
    let systems' := s.systems ++ [(id, ord)]
    (true, { systems := systems', iter := lbInsert (orderOf systems') s.iter id })

/-! ## Trees, reachability and state invariants (specification-side notions) -/

/-- Finite rose tree of entity ids, used to describe a `Transform` subtree. -/
inductive Tree where
  | node : EId → List Tree → Tree

/-- Root id of a tree. -/
def Tree.rootId : Tree → EId
  | .node i _ => i

/-- Node count. -/
def Tree.size : Tree → Nat
  | .node _ ks => 1 + (ks.attach.map (fun k => k.1.size)).sum
decreasing_by
  have := List.sizeOf_lt_of_mem k.2
  simp_wf
  omega

/-- All ids, root first. -/
def Tree.ids : Tree → List EId
  | .node i ks => i :: (ks.attach.map (fun k => k.1.ids)).flatten
decreasing_by
  have := List.sizeOf_lt_of_mem k.2
  simp_wf
  omega

/-- Post-order id sequence: children's sequences left to right, then the root. -/
def Tree.post : Tree → List EId
  | .node i ks => (ks.attach.map (fun k => k.1.post)).flatten ++ [i]
decreasing_by
  have := List.sizeOf_lt_of_mem k.2
  simp_wf
  omega

/-- `t` describes the subtree structure stored in `s`: each node's stored
children list is exactly the roots of its subtrees. -/
def TreeOK (s : S) : Tree → Prop
  | .node i ks => s.children i = ks.map Tree.rootId ∧ ∀ k ∈ ks, TreeOK s k

/-- Abstract frames describing the post-order iterator's stack: an unvisited
subtree, or an already-visited node awaiting its yield. -/
abbrev Frame := Tree ⊕ EId

/-- The concrete stack a frame list stands for. -/
def stackOf (fs : List Frame) : List EId :=
  fs.map (fun f => match f with | .inl t => t.rootId | .inr i => i)

/-- The output the iterator still owes for a frame list. -/
def outOf (fs : List Frame) : List EId :=
  (fs.map (fun f => match f with | .inl t => t.post | .inr i => [i])).flatten

/-- Steps the iterator needs to exhaust a frame list. -/
def fuelOf (fs : List Frame) : Nat :=
  (fs.map (fun f => match f with | .inl t => 2 * t.size | .inr _ => 1)).sum

/-- `c` occurs strictly before `p` in `l`. -/
def Precedes (l : List EId) (c p : EId) : Prop :=
  ∃ l1 l2, l = l1 ++ p :: l2 ∧ c ∈ l1

/-- Ids of the not-yet-visited subtrees among the frames. -/
def idsOfFrames (fs : List Frame) : List EId :=
  (fs.map (fun f => match f with | .inl t => t.ids | .inr _ => [])).flatten

/-- `t` also describes the stored parent pointers: each child node's parent
pointer is its tree parent. -/
def TreeParentOK (s : S) : Tree → Prop
  | .node i ks => ∀ k ∈ ks, s.parent k.rootId = some i ∧ TreeParentOK s k

/-- Downward reachability through stored children lists, stepping only into
valid children — exactly the set of nodes `SetWorldDirty` visits starting from
its argument. -/
inductive Reach (s : S) : EId → EId → Prop where
  | refl (e : EId) : Reach s e e
  | head {e c x : EId} : c ∈ s.children e → c ∈ s.valid → Reach s c x → Reach s e x

/-- `a` is a strict ancestor of `d` through stored parent pointers. -/
inductive IsAnc (s : S) (a : EId) : EId → Prop where
  | base {d : EId} : s.parent d = some a → IsAnc s a d
  | step {d m : EId} : s.parent d = some m → IsAnc s a m → IsAnc s a d

/-- Bidirectional consistency over the valid entities of a common scene:
`e.parent == p ⇔ p.children.contains(e)`. -/
def Bidir (s : S) : Prop :=
  ∀ e ∈ s.valid, ∀ p ∈ s.valid, s.sceneOf e = s.sceneOf p →
    (s.parent e = some p ↔ e ∈ s.children p)

/-- Parent pointers of valid entities point at valid entities. -/
def ParentsValid (s : S) : Prop :=
  ∀ e ∈ s.valid, ∀ p, s.parent e = some p → p ∈ s.valid

/-- `rank` witnesses well-foundedness of the parent graph: it strictly drops
along parent pointers of valid entities. -/
def RankedV (s : S) (rank : EId → Nat) : Prop :=
  ∀ e ∈ s.valid, ∀ p, s.parent e = some p → rank p < rank e

/-- A clean model flag means the cached model matrix is the recomputed TRS. -/
def CacheM (s : S) : Prop :=
  ∀ e ∈ s.valid, s.modelDirty e = false → s.cachedModel e = calcModel e s

/-- A clean world flag means the cached world matrix is the recomputed
composition (evaluated with fuel `rank e + 1`, enough for the parent chain). -/
def CacheW (s : S) (rank : EId → Nat) : Prop :=
  ∀ e ∈ s.valid, s.worldDirty e = false →
    trueWorld (rank e + 1) e s = some (s.cachedWorld e)

instance (s : S) : Decidable (Bidir s) :=
  inferInstanceAs (Decidable (∀ e ∈ s.valid, ∀ p ∈ s.valid,
    s.sceneOf e = s.sceneOf p → (s.parent e = some p ↔ e ∈ s.children p)))

instance (s : S) : Decidable (ParentsValid s) :=
  decidable_of_iff
    (∀ e ∈ s.valid, (s.parent e).all (fun p => decide (p ∈ s.valid)) = true) (by
    unfold ParentsValid
    refine forall₂_congr fun e _ => ?_
    cases h : s.parent e <;> simp [h, Option.all])

instance (s : S) (rank : EId → Nat) : Decidable (RankedV s rank) :=
  decidable_of_iff
    (∀ e ∈ s.valid, (s.parent e).all (fun p => decide (rank p < rank e)) = true) (by
    unfold RankedV
    refine forall₂_congr fun e _ => ?_
    cases h : s.parent e <;> simp [h, Option.all])

instance (s : S) : Decidable (CacheM s) :=
  inferInstanceAs (Decidable (∀ e ∈ s.valid, s.modelDirty e = false →
    s.cachedModel e = calcModel e s))

instance (s : S) (rank : EId → Nat) : Decidable (CacheW s rank) :=
  inferInstanceAs (Decidable (∀ e ∈ s.valid, s.worldDirty e = false →
    trueWorld (rank e + 1) e s = some (s.cachedWorld e)))

/-- The two states agree on everything `trueWorld` and the hierarchy read:
validity, scenes, links and local TRS data (dirty flags and caches may
differ). -/
def StructEq (s s' : S) : Prop :=
  s'.valid = s.valid ∧ s'.sceneOf = s.sceneOf ∧ s'.parent = s.parent ∧
    s'.children = s.children ∧ s'.pos = s.pos ∧ s'.scale = s.scale ∧ s'.rot = s.rot

/-- The two states agree on every field except the world-dirty flags —
`SetWorldDirty` mutates nothing else. -/
def NonW (s s' : S) : Prop :=
  s'.valid = s.valid ∧ s'.sceneOf = s.sceneOf ∧ s'.parent = s.parent ∧
    s'.children = s.children ∧ s'.pos = s.pos ∧ s'.scale = s.scale ∧ s'.rot = s.rot ∧
    s'.modelDirty = s.modelDirty ∧ s'.cachedModel = s.cachedModel ∧
    s'.cachedWorld = s.cachedWorld ∧ s'.tags = s.tags

/-! ## Concrete scenes used to evaluate the code on the claims' scenarios -/

/-- Empty scene with default-constructed `Transform` fields (`Vec3::ZERO`,
`Vec3::ONE`, `Quat::IDENTITY`, both dirty flags true, identity caches —
Transform.hpp lines 255-266). -/
def baseS : S where
  valid := []
  sceneOf := fun _ => 0
  parent := fun _ => none
  children := fun _ => []
  pos := fun _ => ⟨0, 0, 0⟩
  scale := fun _ => ⟨1, 1, 1⟩
  rot := fun _ => ⟨1, 0, 0, 0⟩
  modelDirty := fun _ => true
  worldDirty := fun _ => true
  cachedModel := fun _ => .identity
  cachedWorld := fun _ => .identity
  tags := []

/-- The spec's hierarchy scenario: root 1 with children 2, 3; node 2 with
children 4, 5; node 3 with children 6, 7. -/
def c7s : S :=
  { baseS with
    valid := [1, 2, 3, 4, 5, 6, 7]
    parent := fun e =>
      if e = 2 ∨ e = 3 then some 1
      else if e = 4 ∨ e = 5 then some 2
      else if e = 6 ∨ e = 7 then some 3
      else none
    children := fun e =>
      if e = 1 then [2, 3] else if e = 2 then [4, 5] else if e = 3 then [6, 7] else [] }

/-- Cycle scenario: entity 1 (the spec's A) is the parent of entity 2 (B). -/
def c1s : S :=
  { baseS with
    valid := [1, 2]
    parent := fun e => if e = 2 then some 1 else none
    children := fun e => if e = 1 then [2] else [] }

/-- The link state `TrySetParent` reaches on `c1s` after relinking entity 1
under entity 2, just before its final `SetWorldDirty()` call. -/
def c1s3 : S :=
  { c1s with
    parent := upd c1s.parent 1 (some 2)
    children := upd c1s.children 2 (c1s.children 2 ++ [1]) }

/-- Destruction scenario: entity 1 is the parent of entity 2, and entity 2
carries `DestroyTag`. -/
def c2s : S :=
  { baseS with
    valid := [1, 2]
    parent := fun e => if e = 2 then some 1 else none
    children := fun e => if e = 1 then [2] else []
    tags := [2] }

/-- The seven-node scene with its root marked for destruction. -/
def c4s : S := { c7s with tags := [1] }

/-- The seven-node hierarchy as a tree value. -/
def t7 : Tree :=
  .node 1 [.node 2 [.node 4 [], .node 5 []], .node 3 [.node 6 [], .node 7 []]]

/-- Sibling scenario: entity 1 with children 2, 3, 4; entity 9 claims parent 1
but is absent from 1's children list (a corrupted hierarchy). -/
def c8s : S :=
  { baseS with
    valid := [1, 2, 3, 4, 9]
    parent := fun e => if e = 2 ∨ e = 3 ∨ e = 4 ∨ e = 9 then some 1 else none
    children := fun e => if e = 1 then [2, 3, 4] else [] }

-- ===================================================================
-- THEOREMS
-- ===================================================================

/-! ### C7 — traversal orders on the spec's seven-node hierarchy -/

/-- **C7.** On the hierarchy with root 1 (children 2, 3), node 2 (children
4, 5) and node 3 (children 6, 7), the stack-based pre-order iterator (children
pushed right-to-left) yields 1,2,4,5,3,6,7, and the stack-based post-order
iterator with its visited set yields 4,5,2,6,7,3,1. -/
theorem c7_traversal_orders :
    preOrderRun 32 [1] [] c7s = some [1, 2, 4, 5, 3, 6, 7] ∧
      postOrderRun 32 [1] [] [] c7s = some [4, 5, 2, 6, 7, 3, 1] := by
  constructor <;> rfl

/-! ### C9 — `Entity::operator!=` is not the negation of `operator==` -/

/-- **C9.** For entities with equal scene pointers and different handles,
`operator==` returns false and `operator!=` also returns false, because
`operator!=` conjoins (rather than disjoins) the two field inequalities. -/
theorem c9_ne_not_negation_of_eq (a b : CEntity)
    (hscene : a.scene = b.scene) (hhandle : a.handle ≠ b.handle) :
    entityEq a b = false ∧ entityNe a b = false := by
  simp [entityEq, entityNe, hscene, hhandle]

/-- **C9 witness**: scene pointer 7 shared, handles 1 ≠ 2. -/
theorem c9_ne_not_negation_of_eq_witness :
    (7 : Nat) = 7 ∧ (1 : Nat) ≠ 2 ∧
      (entityEq ⟨7, 1⟩ ⟨7, 2⟩ = false ∧ entityNe ⟨7, 1⟩ ⟨7, 2⟩ = false) :=
  ⟨rfl, by decide, c9_ne_not_negation_of_eq ⟨7, 1⟩ ⟨7, 2⟩ rfl (by decide)⟩

/-! ### C10 — sibling/root operations dereference a null parent before any
null check -/

/-- **C10.** On a root transform (`_parent == nullptr`), `GetSiblingIndex`,
`TrySetSiblingIndex`, `TrySetAsLastSibling` and `GetRoot` all hit the null
dereference (their guard `_parent->IsValid()` has no preceding null test), so
the parentless early-return branches (`return 0` / `return false`) are
unreachable for an actual root. -/
theorem c10_null_deref_on_root (s : S) (e : EId) (i fuel : Nat)
    (hroot : s.parent e = none) :
    getSiblingIndex e s = .error .nullDeref ∧
      trySetSiblingIndex e i s = .error .nullDeref ∧
      trySetAsLastSibling e s = .error .nullDeref ∧
      getRoot (fuel + 1) e s = some (.error .nullDeref) := by
  refine ⟨?_, ?_, ?_, ?_⟩ <;>
    simp [getSiblingIndex, trySetSiblingIndex, trySetAsLastSibling, getRoot, hroot]

/-- **C10 witness**: the root entity 1 of the seven-node scene. -/
theorem c10_null_deref_on_root_witness :
    c7s.parent 1 = none ∧
      (getSiblingIndex 1 c7s = .error .nullDeref ∧
        trySetSiblingIndex 1 0 c7s = .error .nullDeref ∧
        trySetAsLastSibling 1 c7s = .error .nullDeref ∧
        getRoot 1 1 c7s = some (.error .nullDeref)) :=
  ⟨rfl, c10_null_deref_on_root c7s 1 0 0 rfl⟩

/-! ### C1 — cycle-creating reparent requests are *not* rejected -/

/-- On a two-cycle between entities 1 and 2 (each listed among the other's
children, both valid), `SetWorldDirty` recurses forever: no finite recursion
depth completes. -/
theorem swd_cycle (f : Nat) :
    ∀ s : S, s.children 1 = [2] → s.children 2 = [1] → 1 ∈ s.valid → 2 ∈ s.valid →
      setWorldDirty f 1 s = none ∧ setWorldDirty f 2 s = none := by
  induction f with
  | zero => intro s _ _ _ _; exact ⟨rfl, rfl⟩
  | succ n ih =>
    intro s h1 h2 hv1 hv2
    constructor
    · show swdKids (setWorldDirty n) (s.children 1) _ = none
      rw [h1]
      simp only [swdKids, hv2, if_pos]
      rw [(ih { s with worldDirty := upd s.worldDirty 1 true } h1 h2 hv1 hv2).2]
    · show swdKids (setWorldDirty n) (s.children 2) _ = none
      rw [h2]
      simp only [swdKids, hv1, if_pos]
      rw [(ih { s with worldDirty := upd s.worldDirty 2 true } h1 h2 hv1 hv2).1]

/-- **C1.** `Transform::TrySetParent` contains no cycle check.  With entity 1
the parent of entity 2: (a) `2.TrySetParent(1)` returns *true* (the
`HasParent` no-op branch), not false as claimed; (b) `1.TrySetParent(2)` — a
cycle-creating request — is not rejected: the links are mutated first
(`c1s3`: 1's parent becomes 2 while 2 is still 1's child, a parent cycle), and
the final `SetWorldDirty()` then recurses around that cycle without
terminating at any recursion depth (a stack overflow in the C++). -/
theorem c1_cycle_not_rejected :
    (∀ fuel, trySetParent fuel 2 (some 1) c1s = some (true, c1s)) ∧
      (∀ fuel, trySetParent fuel 1 (some 2) c1s = none) ∧
      c1s3.parent 1 = some 2 ∧ 2 ∈ c1s3.children 1 ∧ 1 ∈ c1s3.children 2 := by
  refine ⟨fun _ => rfl, fun fuel => ?_, rfl, by decide, by decide⟩
  show (setWorldDirty fuel 1 c1s3).map (fun s4 => (true, s4)) = none
  rw [(swd_cycle fuel c1s3 (by decide) (by decide) (by decide) (by decide)).1]
  rfl

/-! ### C2 — the destroyed root is *not* detached from its former parent -/

/-- **C2.** `Scene::ProcessEntityCleanup` tries to detach the traversal root
with `transform.TrySetParent(nullptr)` (Scene.cpp line 155), but
`TrySetParent` rejects null parents outright (Transform.cpp line 93), so the
detach is a silent no-op: destroying tagged entity 2 (child of entity 1)
leaves the now-dangling 2 in 1's children list. -/
theorem c2_root_not_detached :
    ∃ s', processEntityCleanup 8 c2s = some s' ∧
      2 ∈ s'.children 1 ∧ 2 ∉ s'.valid ∧ 1 ∈ s'.valid ∧
      trySetParent 8 2 none c2s = some (false, c2s) :=
  ⟨_, rfl, by decide, by decide, by decide, rfl⟩

/-! ### C5 — `Scene::TryAddSystem`: sorted insertion, but *not* stable on ties -/

/-- Splitting behaviour of the `lower_bound` insertion on a sorted vector: the
new id lands after exactly the strictly-smaller prefix and before every entry
of greater *or equal* key. -/
theorem lbInsert_split (f : Nat → Int) (id : Nat) :
    ∀ l : List Nat, l.Pairwise (fun a b => f a ≤ f b) →
      ∃ l1 l2, l = l1 ++ l2 ∧ lbInsert f l id = l1 ++ id :: l2 ∧
        (∀ a ∈ l1, f a < f id) ∧ (∀ a ∈ l2, f id ≤ f a) := by
  intro l
  induction l with
  | nil => exact fun _ => ⟨[], [], rfl, rfl, by simp, by simp⟩
  | cons a rest ih =>
    intro hp
    by_cases hlt : f a < f id
    · obtain ⟨l1, l2, he, hre, h1, h2⟩ := ih (List.Pairwise.of_cons hp)
      refine ⟨a :: l1, l2, by simp [he], ?_, ?_, h2⟩
      · simp only [lbInsert, if_pos hlt, hre, List.cons_append]
      · intro x hx
        rcases List.mem_cons.1 hx with h | h
        · exact h ▸ hlt
        · exact h1 x h
    · refine ⟨[], a :: rest, rfl, by simp [lbInsert, hlt], by simp, ?_⟩
      intro x hx
      rcases List.mem_cons.1 hx with h | h
      · subst h; exact not_lt.1 hlt
      · exact le_trans (not_lt.1 hlt) ((List.pairwise_cons.1 hp).1 x h)

/-- A key already present in the map keeps its order after appending a fresh
entry. -/
theorem orderOf_append_of_mem (l : List (Nat × Int)) (kv : Nat × Int) (a : Nat)
    (h : l.any (fun e => e.1 == a) = true) :
    orderOf (l ++ [kv]) a = orderOf l a := by
  have : (l.find? (fun e => e.1 == a)).isSome := by
    rw [List.find?_isSome]
    simpa using h
  unfold orderOf
  rw [List.find?_append]
  obtain ⟨v, hv⟩ := Option.isSome_iff_exists.1 this
  rw [hv]
  rfl

/-- A fresh key appended to the map gets the appended order. -/
theorem orderOf_append_self (l : List (Nat × Int)) (id : Nat) (ord : Int)
    (h : l.any (fun e => e.1 == id) = false) :
    orderOf (l ++ [(id, ord)]) id = ord := by
  have hnone : l.find? (fun e => e.1 == id) = none := by
    rw [List.find?_eq_none]
    intro x hx
    have := List.any_eq_false.1 h x hx
    simpa using this
  unfold orderOf
  rw [List.find?_append, hnone]
  simp [List.find?]

/-- **C5 counterexample.** Registering two systems with equal execution order
(type id 1 then type id 2, both order 0) leaves the iteration vector `[2, 1]`:
the later registration is dispatched *first*, not after the earlier one as the
claim's tie-stability asserts. -/
theorem c5_tie_not_stable :
    (tryAddSystem 1 0 ⟨[], []⟩).1 = true ∧
      (tryAddSystem 2 0 (tryAddSystem 1 0 ⟨[], []⟩).2).1 = true ∧
      (tryAddSystem 2 0 (tryAddSystem 1 0 ⟨[], []⟩).2).2.iter = [2, 1] ∧
      (tryAddSystem 2 0 (tryAddSystem 1 0 ⟨[], []⟩).2).2.iter ≠ [1, 2] := by
  refine ⟨rfl, rfl, rfl, by decide⟩

/-- **C5 (amended).** `TryAddSystem` returns false without any change when the
system type is already registered; otherwise it inserts into the order-vector
by `std::lower_bound` sorted insertion on `GetExecutionOrder()` that is
*anti*-stable on ties: the new system is placed before every existing entry of
equal key (equal-order systems end up dispatched in reverse registration
order), and the vector stays sorted. -/
theorem c5_tryAddSystem_sorted_insert (s : Sched) (id : Nat) (ord : Int)
    (hsorted : s.iter.Pairwise (fun a b => orderOf s.systems a ≤ orderOf s.systems b))
    (hsub : ∀ a ∈ s.iter, s.systems.any (fun e => e.1 == a) = true) :
    (s.systems.any (fun e => e.1 == id) = true → tryAddSystem id ord s = (false, s)) ∧
      (s.systems.any (fun e => e.1 == id) = false →
        ∃ l1 l2, s.iter = l1 ++ l2 ∧
          tryAddSystem id ord s =
            (true, { systems := s.systems ++ [(id, ord)], iter := l1 ++ id :: l2 }) ∧
          (∀ a ∈ l1, orderOf s.systems a < ord) ∧
          (∀ a ∈ l2, ord ≤ orderOf s.systems a) ∧
          (l1 ++ id :: l2).Pairwise (fun a b =>
            orderOf (s.systems ++ [(id, ord)]) a ≤ orderOf (s.systems ++ [(id, ord)]) b)) := by
  constructor
  · intro hdup
    simp [tryAddSystem, hdup]
  · intro hfresh
    set sys' := s.systems ++ [(id, ord)] with hsys'
    have hself : orderOf sys' id = ord := orderOf_append_self _ _ _ hfresh
    have hkeep : ∀ a ∈ s.iter, orderOf sys' a = orderOf s.systems a := fun a ha =>
      orderOf_append_of_mem _ _ _ (hsub a ha)
    have hsorted' : s.iter.Pairwise (fun a b => orderOf sys' a ≤ orderOf sys' b) := by
      refine List.Pairwise.imp_of_mem ?_ hsorted
      intro a b ha hb hab
      rw [hkeep a ha, hkeep b hb]
      exact hab
    obtain ⟨l1, l2, he, hre, h1, h2⟩ := lbInsert_split (orderOf sys') id s.iter hsorted'
    have hm1 : ∀ a ∈ l1, a ∈ s.iter := fun a ha => he ▸ List.mem_append_left _ ha
    have hm2 : ∀ a ∈ l2, a ∈ s.iter := fun a ha => he ▸ List.mem_append_right _ ha
    refine ⟨l1, l2, he, ?_, ?_, ?_, ?_⟩
    · simp only [tryAddSystem, hfresh, Bool.false_eq_true, if_false]
      rw [← hsys', hre]
    · intro a ha
      have := h1 a ha
      rwa [hkeep a (hm1 a ha), hself] at this
    · intro a ha
      have := h2 a ha
      rwa [hkeep a (hm2 a ha), hself] at this
    · have hps := he ▸ hsorted'
      rw [List.pairwise_append] at hps
      rw [List.pairwise_append]
      refine ⟨hps.1, ?_, ?_⟩
      · rw [List.pairwise_cons]
        exact ⟨fun b hb => hself ▸ h2 b hb, hps.2.1⟩
      · intro a ha b hb
        rcases List.mem_cons.1 hb with h | h
        · subst h
          exact le_of_lt (h1 a ha)
        · exact hps.2.2 a ha b h

/-- **C5 witness**: inserting system 3 of order 5 into a scheduler holding
system 1 of order 2 and system 2 of order 9. -/
theorem c5_tryAddSystem_sorted_insert_witness :
    ([1, 2] : List Nat).Pairwise (fun a b =>
        orderOf [(1, 2), (2, 9)] a ≤ orderOf [(1, 2), (2, 9)] b) ∧
      (∀ a ∈ ([1, 2] : List Nat), ([(1, 2), (2, 9)] : List (Nat × Int)).any
        (fun e => e.1 == a) = true) ∧
      (([(1, 2), (2, 9)] : List (Nat × Int)).any (fun e => e.1 == 3) = false →
        ∃ l1 l2, ([1, 2] : List Nat) = l1 ++ l2 ∧
          tryAddSystem 3 5 ⟨[(1, 2), (2, 9)], [1, 2]⟩ =
            (true, { systems := [(1, 2), (2, 9), (3, 5)], iter := l1 ++ 3 :: l2 }) ∧
          (∀ a ∈ l1, orderOf [(1, 2), (2, 9)] a < 5) ∧
          (∀ a ∈ l2, (5 : Int) ≤ orderOf [(1, 2), (2, 9)] a) ∧
          (l1 ++ 3 :: l2).Pairwise (fun a b =>
            orderOf [(1, 2), (2, 9), (3, 5)] a ≤ orderOf [(1, 2), (2, 9), (3, 5)] b)) := by
  refine ⟨by decide, by decide, ?_⟩
  exact (c5_tryAddSystem_sorted_insert ⟨[(1, 2), (2, 9)], [1, 2]⟩ 3 5
    (by decide) (by decide)).2

/-! ### C8 — `TrySetSiblingIndex`: clamped reorder, exception on corruption -/

/-- `std::vector::insert` at a clamped position splits the vector. -/
theorem insertIdx_split {α : Type} (a : α) :
    ∀ (k : Nat) (l : List α), k ≤ l.length →
      l.insertIdx k a = l.take k ++ a :: l.drop k := by
  intro k
  induction k with
  | zero => intro l _; simp
  | succ n ih =>
    intro l hl
    cases l with
    | nil => simp at hl
    | cons b rest =>
      simp only [List.insertIdx_succ_cons, List.take_succ_cons, List.drop_succ_cons,
        List.cons_append, List.cons.injEq, true_and]
      exact ih rest (Nat.succ_le_succ_iff.1 hl)

/-- **C8.** With a valid parent: when the entity is present in the parent's
children list, `TrySetSiblingIndex(i)` returns true and reorders the list —
the entity is re-inserted after exactly `min i (childCount − 1)` of its
siblings, the list stays a permutation of the old one and nothing else
changes; when the entity is absent from its claimed parent's children list,
the call throws `std::runtime_error` (an exception raised in release builds
too), not a `false` return. -/
theorem c8_sibling_index (s : S) (e p : EId) (i : Nat)
    (hp : s.parent e = some p) (hv : p ∈ s.valid) :
    (e ∈ s.children p →
      ∃ l1 l2, (s.children p).erase e = l1 ++ l2 ∧
        l1.length = min i ((s.children p).erase e).length ∧
        trySetSiblingIndex e i s =
          .ok (true, { s with children := upd s.children p (l1 ++ e :: l2) }) ∧
        (l1 ++ e :: l2).Perm (s.children p)) ∧
      (e ∉ s.children p → trySetSiblingIndex e i s = .error .corruption) := by
  constructor
  · intro he
    set l := (s.children p).erase e with hl
    set k := min i l.length with hk
    have hkle : k ≤ l.length := min_le_right _ _
    refine ⟨l.take k, l.drop k, (List.take_append_drop k l).symm, ?_, ?_, ?_⟩
    · simp [List.length_take]
      omega
    · simp only [trySetSiblingIndex, hp, hv, not_true_eq_false, if_false, if_pos he,
        ← hl, ← hk]
      rw [insertIdx_split e k l hkle]
    · refine List.Perm.trans List.perm_middle ?_
      rw [List.take_append_drop]
      exact (List.perm_cons_erase he).symm
  · intro he
    simp [trySetSiblingIndex, hp, hv, he]

/-- **C8 witness**: entity 3 moved to index 0 among children `[2, 3, 4]` of
entity 1, and corrupted entity 9 (claims parent 1, absent from its children). -/
theorem c8_sibling_index_witness :
    c8s.parent 3 = some 1 ∧ 1 ∈ c8s.valid ∧
      ((3 ∈ c8s.children 1 →
        ∃ l1 l2, (c8s.children 1).erase 3 = l1 ++ l2 ∧
          l1.length = min 0 ((c8s.children 1).erase 3).length ∧
          trySetSiblingIndex 3 0 c8s =
            .ok (true, { c8s with children := upd c8s.children 1 (l1 ++ 3 :: l2) }) ∧
          (l1 ++ 3 :: l2).Perm (c8s.children 1)) ∧
        (3 ∉ c8s.children 1 → trySetSiblingIndex 3 0 c8s = .error .corruption)) :=
  ⟨rfl, by decide, c8_sibling_index c8s 3 1 0 rfl (by decide)⟩

/-! ### C3 — bidirectional parent/children consistency is preserved -/

theorem nonW_refl (s : S) : NonW s s :=
  ⟨rfl, rfl, rfl, rfl, rfl, rfl, rfl, rfl, rfl, rfl, rfl⟩

theorem nonW_trans {s t u : S} (h1 : NonW s t) (h2 : NonW t u) : NonW s u := by
  obtain ⟨a1, a2, a3, a4, a5, a6, a7, a8, a9, a10, a11⟩ := h1
  obtain ⟨b1, b2, b3, b4, b5, b6, b7, b8, b9, b10, b11⟩ := h2
  exact ⟨b1.trans a1, b2.trans a2, b3.trans a3, b4.trans a4, b5.trans a5, b6.trans a6,
    b7.trans a7, b8.trans a8, b9.trans a9, b10.trans a10, b11.trans a11⟩

/-- `SetWorldDirty`'s child loop only touches world-dirty flags. -/
theorem swdKids_nonW (f : EId → S → Option S)
    (hf : ∀ c s s', f c s = some s' → NonW s s') :
    ∀ (cs : List EId) (s s' : S), swdKids f cs s = some s' → NonW s s' := by
  intro cs
  induction cs with
  | nil =>
    intro s s' h
    cases h
    exact nonW_refl s
  | cons c cs ih =>
    intro s s' h
    unfold swdKids at h
    by_cases hc : c ∈ s.valid
    · rw [if_pos hc] at h
      cases hfc : f c s with
      | none => rw [hfc] at h; cases h
      | some t =>
        rw [hfc] at h
        exact nonW_trans (hf c s t hfc) (ih t s' h)
    · rw [if_neg hc] at h
      exact ih s s' h

/-- `SetWorldDirty` only touches world-dirty flags. -/
theorem swd_nonW : ∀ (n : Nat) (e : EId) (s s' : S),
    setWorldDirty n e s = some s' → NonW s s' := by
  intro n
  induction n with
  | zero => intro e s s' h; cases h
  | succ n ih =>
    intro e s s' h
    unfold setWorldDirty at h
    dsimp only at h
    exact @nonW_trans s { s with worldDirty := upd s.worldDirty e true } s'
      ⟨rfl, rfl, rfl, rfl, rfl, rfl, rfl, rfl, rfl, rfl, rfl⟩
      (swdKids_nonW (setWorldDirty n) (fun c t t' hc => ih c t t' hc) _ _ _ h)

/-- Bidirectional consistency only reads validity, scenes and links, so it
transports across `NonW`. -/
theorem bidir_of_nonW {s t : S} (h : NonW s t) (hB : Bidir s) : Bidir t := by
  unfold Bidir
  rw [h.1, h.2.1, h.2.2.1, h.2.2.2.1]
  exact hB

theorem unlinkOld_valid (e : EId) (s : S) : (unlinkOld e s).valid = s.valid := by
  unfold unlinkOld
  cases s.parent e with
  | none => rfl
  | some op => dsimp only; split <;> rfl

theorem unlinkOld_sceneOf (e : EId) (s : S) : (unlinkOld e s).sceneOf = s.sceneOf := by
  unfold unlinkOld
  cases s.parent e with
  | none => rfl
  | some op => dsimp only; split <;> rfl

theorem unlinkOld_parent (e : EId) (s : S) : (unlinkOld e s).parent = s.parent := by
  unfold unlinkOld
  cases s.parent e with
  | none => rfl
  | some op => dsimp only; split <;> rfl

/-- Membership in children lists after the unlink step: exactly the old
memberships minus the owner's entry in its old (valid) parent's list. -/
theorem unlinkOld_children_mem (e : EId) (s : S) (x q : EId) :
    x ∈ (unlinkOld e s).children q ↔
      x ∈ s.children q ∧ ¬(x = e ∧ s.parent e = some q ∧ q ∈ s.valid) := by
  unfold unlinkOld
  cases h : s.parent e with
  | none => simp [h]
  | some op =>
    dsimp only
    by_cases hov : op ∈ s.valid
    · rw [if_pos hov]
      by_cases hq : q = op
      · subst hq
        show x ∈ upd s.children q ((s.children q).filter (· ≠ e)) q ↔ _
        simp only [upd_same, List.mem_filter, decide_eq_true_eq, h, Option.some.injEq, hov]
        tauto
      · show x ∈ upd s.children op ((s.children op).filter (· ≠ e)) q ↔ _
        rw [upd_other _ _ _ _ hq]
        simp only [h, Option.some.injEq]
        constructor
        · intro hm
          exact ⟨hm, by rintro ⟨_, hqq, _⟩; exact hq hqq.symm⟩
        · exact fun hm => hm.1
    · rw [if_neg hov]
      simp only [h, Option.some.injEq]
      constructor
      · intro hm
        refine ⟨hm, ?_⟩
        rintro ⟨_, hqq, hqv⟩
        exact hov (hqq ▸ hqv)
      · exact fun hm => hm.1

theorem linkPhase_valid (e p : EId) (s : S) : (linkPhase e p s).valid = s.valid := by
  unfold linkPhase
  dsimp only
  split_ifs <;> exact unlinkOld_valid e s

theorem linkPhase_sceneOf (e p : EId) (s : S) : (linkPhase e p s).sceneOf = s.sceneOf := by
  unfold linkPhase
  dsimp only
  split_ifs <;> exact unlinkOld_sceneOf e s

theorem linkPhase_parent (e p : EId) (s : S) :
    (linkPhase e p s).parent = upd s.parent e (some p) := by
  unfold linkPhase
  dsimp only
  split_ifs <;> rw [unlinkOld_parent]

/-- Membership in children lists after the whole mutation phase: the owner is
in the new parent's list; everything else is the unlink picture. -/
theorem linkPhase_children_mem (e p : EId) (s : S) (hvp : p ∈ s.valid) (x q : EId) :
    x ∈ (linkPhase e p s).children q ↔
      (x = e ∧ q = p) ∨
        (x ∈ s.children q ∧ ¬(x = e ∧ s.parent e = some q ∧ q ∈ s.valid)) := by
  unfold linkPhase
  dsimp only
  rw [if_pos (by rw [unlinkOld_valid]; exact hvp)]
  by_cases hmem : e ∈ (unlinkOld e s).children p
  · rw [if_pos hmem, unlinkOld_children_mem]
    constructor
    · exact Or.inr
    · rintro (⟨rfl, rfl⟩ | h2)
      · exact (unlinkOld_children_mem x s x q).1 hmem
      · exact h2
  · rw [if_neg hmem]
    by_cases hqp : q = p
    · subst hqp
      show x ∈ upd (unlinkOld e s).children q ((unlinkOld e s).children q ++ [e]) q ↔ _
      rw [upd_same]
      simp only [List.mem_append, List.mem_singleton, unlinkOld_children_mem]
      tauto
    · show x ∈ upd (unlinkOld e s).children p ((unlinkOld e s).children p ++ [e]) q ↔ _
      rw [upd_other _ _ _ _ hqp, unlinkOld_children_mem]
      tauto

/-- The successful mutation phase of `TrySetParent` preserves bidirectional
consistency. -/
theorem linkPhase_bidir (e p : EId) (s : S) (hB : Bidir s)
    (hvp : p ∈ s.valid) : Bidir (linkPhase e p s) := by
  intro x hx q hq hscq
  rw [linkPhase_valid] at hx hq
  rw [linkPhase_sceneOf] at hscq
  rw [linkPhase_parent, linkPhase_children_mem e p s hvp x q]
  by_cases hx_e : x = e
  · subst hx_e
    rw [upd_same]
    constructor
    · intro hq_eq
      injection hq_eq with hq_eq
      exact Or.inl ⟨rfl, hq_eq.symm⟩
    · rintro (⟨_, rfl⟩ | ⟨hmem, hno⟩)
      · rfl
      · exact absurd ⟨rfl, (hB x hx q hq hscq).2 hmem, hq⟩ hno
  · rw [upd_other _ _ _ _ hx_e]
    constructor
    · intro hpar
      exact Or.inr ⟨(hB x hx q hq hscq).1 hpar, by rintro ⟨h1, _⟩; exact hx_e h1⟩
    · rintro (⟨h1, _⟩ | ⟨hmem, _⟩)
      · exact absurd h1 hx_e
      · exact (hB x hx q hq hscq).2 hmem

/-- A completed `TrySetParent` preserves bidirectional consistency. -/
theorem trySetParent_pres_bidir (n : Nat) (e : EId) (np : Option EId) (s : S)
    (b : Bool) (s' : S) (hB : Bidir s)
    (h : trySetParent n e np s = some (b, s')) : Bidir s' := by
  cases np with
  | none =>
    unfold trySetParent at h
    simp only [Option.some.injEq, Prod.mk.injEq] at h
    obtain ⟨_, rfl⟩ := h
    exact hB
  | some p =>
    unfold trySetParent at h
    dsimp only at h
    split_ifs at h with h1 h2 h3
    all_goals
      first
      | (simp only [Option.some.injEq, Prod.mk.injEq] at h
         obtain ⟨_, rfl⟩ := h
         exact hB)
      | skip
    cases hsw : setWorldDirty n e (linkPhase e p s) with
    | none => rw [hsw] at h; cases h
    | some s4 =>
      rw [hsw] at h
      simp only [Option.map_some', Option.some.injEq, Prod.mk.injEq] at h
      obtain ⟨_, rfl⟩ := h
      exact bidir_of_nonW (swd_nonW n e _ s4 hsw) (linkPhase_bidir e p s hB h1)

/-- A completed `TryAddChild` preserves bidirectional consistency. -/
theorem tryAddChild_pres_bidir (n : Nat) (a c : EId) (s : S) (b : Bool) (s' : S)
    (hB : Bidir s) (h : tryAddChild n a c s = some (b, s')) : Bidir s' := by
  unfold tryAddChild at h
  split_ifs at h with h1
  · simp only [Option.some.injEq, Prod.mk.injEq] at h
    obtain ⟨_, rfl⟩ := h
    exact hB
  · cases htsp : trySetParent n c (some a) s with
    | none => rw [htsp] at h; cases h
    | some r =>
      rw [htsp] at h
      simp only [Option.map_some', Option.some.injEq, Prod.mk.injEq] at h
      obtain ⟨_, rfl⟩ := h
      exact trySetParent_pres_bidir n c (some a) s r.1 r.2 hB (by rw [htsp])

/-- A completed `TryRemoveChild` preserves bidirectional consistency (its
inner `TrySetParent(nullptr)` call is rejected by the null guard, so no branch
mutates anything). -/
theorem tryRemoveChild_pres_bidir (n : Nat) (a c : EId) (s : S) (b : Bool) (s' : S)
    (hB : Bidir s) (h : tryRemoveChild n a c s = some (b, s')) : Bidir s' := by
  unfold tryRemoveChild at h
  split_ifs at h <;>
  · simp only [trySetParent, Option.map_some', Option.some.injEq, Prod.mk.injEq] at h
    obtain ⟨_, rfl⟩ := h
    exact hB

/-- Erasing an element and re-inserting it at a clamped position leaves
membership unchanged. -/
theorem mem_insertIdx_erase (l : List EId) (e x : EId) (i : Nat) (he : e ∈ l) :
    x ∈ (l.erase e).insertIdx (min i (l.erase e).length) e ↔ x ∈ l := by
  rw [insertIdx_split e (min i (l.erase e).length) _ (min_le_right _ _)]
  simp only [List.mem_append, List.mem_cons]
  constructor
  · rintro (ht | rfl | hd)
    · exact List.mem_of_mem_erase (List.mem_of_mem_take ht)
    · exact he
    · exact List.mem_of_mem_erase (List.mem_of_mem_drop hd)
  · intro hm
    by_cases hx_e : x = e
    · exact Or.inr (Or.inl hx_e)
    · have hx' : x ∈ l.erase e := (List.mem_erase_of_ne hx_e).mpr hm
      rw [← List.take_append_drop (min i (l.erase e).length) (l.erase e)] at hx'
      rcases List.mem_append.1 hx' with ht | hd
      · exact Or.inl ht
      · exact Or.inr (Or.inr hd)

/-- A completed `TrySetSiblingIndex` preserves bidirectional consistency. -/
theorem tssi_pres_bidir (e : EId) (i : Nat) (s : S) (b : Bool) (s' : S)
    (hB : Bidir s) (h : trySetSiblingIndex e i s = .ok (b, s')) : Bidir s' := by
  unfold trySetSiblingIndex at h
  cases hp : s.parent e with
  | none => rw [hp] at h; cases h
  | some p =>
    rw [hp] at h
    dsimp only at h
    rcases Decidable.em (p ∈ s.valid) with hv | hv
    · rw [if_neg (by simpa using hv)] at h
      rcases Decidable.em (e ∈ s.children p) with he | he
      · rw [if_pos he] at h
        simp only [Except.ok.injEq, Prod.mk.injEq] at h
        obtain ⟨_, rfl⟩ := h
        intro x hx q hq hscq
        show s.parent x = some q ↔ x ∈ upd s.children p _ q
        unfold upd
        by_cases hqp : q = p
        · subst hqp
          rw [if_pos rfl, mem_insertIdx_erase (s.children q) e x i he]
          exact hB x hx q hq hscq
        · rw [if_neg hqp]
          exact hB x hx q hq hscq
      · rw [if_neg he] at h
        cases h
    · rw [if_pos (by simpa using hv)] at h
      simp only [Except.ok.injEq, Prod.mk.injEq] at h
      obtain ⟨_, rfl⟩ := h
      exact hB

/-- **C3.** From any bidirectionally consistent scene, every *completed*
public hierarchy mutation — `TrySetParent`, `TryAddChild`, `TryRemoveChild`,
`TrySetSiblingIndex` — leaves a scene in which, for all valid entities `e` and
`p` of a common scene, `e`'s transform records `p` as parent iff `p`'s
children list contains `e`. -/
theorem c3_bidirectional_consistency (s : S) (hB : Bidir s) :
    (∀ (n : Nat) (e : EId) (np : Option EId) (b : Bool) (s' : S),
        trySetParent n e np s = some (b, s') → Bidir s') ∧
      (∀ (n : Nat) (a c : EId) (b : Bool) (s' : S),
        tryAddChild n a c s = some (b, s') → Bidir s') ∧
      (∀ (n : Nat) (a c : EId) (b : Bool) (s' : S),
        tryRemoveChild n a c s = some (b, s') → Bidir s') ∧
      (∀ (e : EId) (i : Nat) (b : Bool) (s' : S),
        trySetSiblingIndex e i s = .ok (b, s') → Bidir s') :=
  ⟨fun n e np b s' h => trySetParent_pres_bidir n e np s b s' hB h,
   fun n a c b s' h => tryAddChild_pres_bidir n a c s b s' hB h,
   fun n a c b s' h => tryRemoveChild_pres_bidir n a c s b s' hB h,
   fun e i b s' h => tssi_pres_bidir e i s b s' hB h⟩

/-- **C3 witness**: the seven-node scene is bidirectionally consistent, and
(for instance) reparenting entity 4 under entity 3 with fuel 9 completes and
preserves the invariant. -/
theorem c3_bidirectional_consistency_witness :
    Bidir c7s ∧
      ((∀ (n : Nat) (e : EId) (np : Option EId) (b : Bool) (s' : S),
          trySetParent n e np c7s = some (b, s') → Bidir s') ∧
        (∀ (n : Nat) (a c : EId) (b : Bool) (s' : S),
          tryAddChild n a c c7s = some (b, s') → Bidir s') ∧
        (∀ (n : Nat) (a c : EId) (b : Bool) (s' : S),
          tryRemoveChild n a c c7s = some (b, s') → Bidir s') ∧
        (∀ (e : EId) (i : Nat) (b : Bool) (s' : S),
          trySetSiblingIndex e i c7s = .ok (b, s') → Bidir s')) :=
  ⟨by decide, c3_bidirectional_consistency c7s (by decide)⟩

/-! ### C4 — cascade destruction: post-order erasure of the whole subtree -/

@[simp] theorem ids_node (i : EId) (ks : List Tree) :
    (Tree.node i ks).ids = i :: (ks.map Tree.ids).flatten := by
  unfold Tree.ids
  rw [List.attach_map_val]

@[simp] theorem post_node (i : EId) (ks : List Tree) :
    (Tree.node i ks).post = (ks.map Tree.post).flatten ++ [i] := by
  unfold Tree.post
  rw [List.attach_map_val]

@[simp] theorem size_node (i : EId) (ks : List Tree) :
    (Tree.node i ks).size = 1 + (ks.map Tree.size).sum := by
  unfold Tree.size
  rw [List.attach_map_val]

theorem tree_size_lt {k : Tree} {i : EId} {ks : List Tree} (hk : k ∈ ks) :
    k.size < (Tree.node i ks).size := by
  rw [size_node]
  have h1 : k.size ∈ ks.map Tree.size := List.mem_map_of_mem _ hk
  have h2 := List.single_le_sum (fun (x : Nat) _ => Nat.zero_le x) _ h1
  omega

/-- Structural induction for rose trees with a hypothesis over all child
subtrees. -/
theorem tree_ind (P : Tree → Prop)
    (h : ∀ i ks, (∀ k ∈ ks, P k) → P (Tree.node i ks)) : ∀ t, P t := by
  suffices h' : ∀ (n : Nat) (t : Tree), t.size ≤ n → P t from
    fun t => h' t.size t le_rfl
  intro n
  induction n with
  | zero =>
    intro t ht
    cases t with
    | node i ks => simp [size_node] at ht
  | succ n ihn =>
    intro t ht
    cases t with
    | node i ks =>
      refine h i ks fun k hk => ihn k ?_
      have := @tree_size_lt k i ks hk
      omega

theorem sum_map_two_mul (ks : List Tree) :
    (ks.map (fun k => 2 * k.size)).sum = 2 * (ks.map Tree.size).sum := by
  induction ks with
  | nil => rfl
  | cons k ks ih => simp [ih, Nat.mul_add]

/-- Abstract-machine invariant for the post-order iterator: a stack described
by frames (unvisited subtrees and visited nodes awaiting their yield) emits
exactly the owed output, given that unvisited subtrees are stored in `s`,
their ids are fresh and duplicate-free, and visited-frame ids are in the
visited set. -/
theorem postOrderRun_frames (s : S) :
    ∀ (fuel : Nat) (fs : List Frame) (visited acc : List EId),
      (∀ t, Sum.inl t ∈ fs → TreeOK s t) →
      (idsOfFrames fs).Nodup →
      (∀ x ∈ idsOfFrames fs, x ∉ visited) →
      (∀ i : EId, Sum.inr i ∈ fs → i ∈ visited) →
      fuelOf fs + 1 ≤ fuel →
      postOrderRun fuel (stackOf fs) visited acc s = some (acc ++ outOf fs) := by
  intro fuel
  induction fuel with
  | zero => intro fs _ _ _ _ _ _ hf; omega
  | succ f ih =>
    intro fs visited acc hok hnd hvis hinr hf
    cases fs with
    | nil => simp [stackOf, outOf, postOrderRun]
    | cons fr fs' =>
      cases fr with
      | inr i =>
        have hiv : i ∈ visited := hinr i (List.mem_cons_self _ _)
        have hstep : postOrderRun (f + 1) (stackOf (Sum.inr i :: fs')) visited acc s =
            postOrderRun f (stackOf fs') visited (acc ++ [i]) s := by
          show postOrderRun (f + 1) (i :: stackOf fs') visited acc s = _
          simp only [postOrderRun, if_pos hiv]
        rw [hstep, ih fs' visited (acc ++ [i])
          (fun t ht => hok t (List.mem_cons_of_mem _ ht))
          (by simpa [idsOfFrames] using hnd)
          (fun x hx => hvis x (by simpa [idsOfFrames] using hx))
          (fun j hj => hinr j (List.mem_cons_of_mem _ hj))
          (by simp [fuelOf] at hf ⊢; omega)]
        simp [outOf]
      | inl t =>
        cases t with
        | node i ks =>
          have hmemids : i ∈ idsOfFrames (Sum.inl (Tree.node i ks) :: fs') := by
            simp [idsOfFrames]
          have hroot_nv : i ∉ visited := hvis i hmemids
          have h0 := hok (Tree.node i ks) (List.mem_cons_self _ _)
          unfold TreeOK at h0
          obtain ⟨hch, hkids⟩ := h0
          have hids_split : idsOfFrames (Sum.inl (Tree.node i ks) :: fs') =
              i :: ((ks.map Tree.ids).flatten ++ idsOfFrames fs') := by
            simp [idsOfFrames]
          rw [hids_split] at hnd
          cases ks with
          | nil =>
            have hstep : postOrderRun (f + 1)
                (stackOf (Sum.inl (Tree.node i []) :: fs')) visited acc s =
                postOrderRun f (stackOf fs') (i :: visited) (acc ++ [i]) s := by
              show postOrderRun (f + 1) (i :: stackOf fs') visited acc s = _
              simp only [postOrderRun, if_neg hroot_nv, hch]
              rfl
            have hvis' : ∀ x ∈ idsOfFrames fs', x ∉ i :: visited := by
              intro x hx'
              have hxi : x ≠ i := by
                intro hxi
                subst hxi
                exact (List.nodup_cons.1 hnd).1 (by simpa using hx')
              simp only [List.mem_cons, not_or]
              exact ⟨hxi, hvis x (by rw [hids_split]; simp [hx'])⟩
            have hih := ih fs' (i :: visited) (acc ++ [i])
              (fun t ht => hok t (List.mem_cons_of_mem _ ht))
              (by simpa using hnd.of_cons)
              hvis'
              (fun j hj => List.mem_cons_of_mem _ (hinr j (List.mem_cons_of_mem _ hj)))
              (by simp [fuelOf] at hf ⊢; omega)
            rw [hstep, hih]
            simp [outOf]
          | cons k0 ks' =>
            -- children pushed above the node; the node becomes a visited frame
            have hstack'' : stackOf ((k0 :: ks').map Sum.inl ++ Sum.inr i :: fs') =
                (k0 :: ks').map Tree.rootId ++ i :: stackOf fs' := by
              simp only [stackOf, List.map_append, List.map_map, List.map_cons]
              rfl
            have hstep : postOrderRun (f + 1)
                (stackOf (Sum.inl (Tree.node i (k0 :: ks')) :: fs')) visited acc s =
                postOrderRun f (stackOf ((k0 :: ks').map Sum.inl ++ Sum.inr i :: fs'))
                  (i :: visited) acc s := by
              show postOrderRun (f + 1) (i :: stackOf fs') visited acc s = _
              rw [hstack'']
              simp only [postOrderRun, if_neg hroot_nv, hch]
              rfl
            have hids'' : idsOfFrames ((k0 :: ks').map Sum.inl ++ Sum.inr i :: fs') =
                ((k0 :: ks').map Tree.ids).flatten ++ idsOfFrames fs' := by
              simp only [idsOfFrames, List.map_append, List.map_map, List.map_cons,
                List.flatten_append, List.flatten_cons, List.nil_append]
              rfl
            have hok'' : ∀ t, Sum.inl t ∈ (k0 :: ks').map Sum.inl ++ Sum.inr i :: fs' →
                TreeOK s t := by
              intro t ht
              rcases List.mem_append.1 ht with h1 | h1
              · obtain ⟨k, hk, hke⟩ := List.mem_map.1 h1
                cases Sum.inl.inj hke
                exact hkids _ hk
              · rcases List.mem_cons.1 h1 with h2 | h2
                · cases h2
                · exact hok t (List.mem_cons_of_mem _ h2)
            have hnd'' : (idsOfFrames ((k0 :: ks').map Sum.inl ++ Sum.inr i :: fs')).Nodup := by
              rw [hids'']
              simpa using hnd.of_cons
            have hvis'' : ∀ x ∈ idsOfFrames ((k0 :: ks').map Sum.inl ++ Sum.inr i :: fs'),
                x ∉ i :: visited := by
              intro x hx
              rw [hids''] at hx
              have hxi : x ≠ i := fun hxi =>
                (List.nodup_cons.1 hnd).1 (hxi ▸ (by simpa using hx))
              have hxv : x ∉ visited := by
                apply hvis x
                rw [hids_split]
                simp only [List.mem_cons]
                right
                simpa using hx
              simp only [List.mem_cons, not_or]
              exact ⟨hxi, hxv⟩
            have hinr'' : ∀ j : EId, Sum.inr j ∈ (k0 :: ks').map Sum.inl ++ Sum.inr i :: fs' →
                j ∈ i :: visited := by
              intro j hj
              rcases List.mem_append.1 hj with h1 | h1
              · obtain ⟨k, _, hke⟩ := List.mem_map.1 h1
                cases hke
              · rcases List.mem_cons.1 h1 with h2 | h2
                · cases h2
                  exact List.mem_cons_self _ _
                · exact List.mem_cons_of_mem _ (hinr j (List.mem_cons_of_mem _ h2))
            have hf'' : fuelOf ((k0 :: ks').map Sum.inl ++ Sum.inr i :: fs') + 1 ≤ f := by
              have hsum := sum_map_two_mul (k0 :: ks')
              simp only [fuelOf, List.map_append, List.map_map, List.map_cons,
                List.sum_append, List.sum_cons, size_node] at hf hsum ⊢
              simp only [Function.comp_def] at hf hsum ⊢
              omega
            have hih := ih ((k0 :: ks').map Sum.inl ++ Sum.inr i :: fs')
              (i :: visited) acc hok'' hnd'' hvis'' hinr'' hf''
            rw [hstep, hih]
            simp only [outOf, List.map_append, List.map_map, List.map_cons,
              List.flatten_append, List.flatten_cons, post_node]
            simp [Function.comp_def]

/-- The post-order iterator on a stored subtree yields exactly the post-order
sequence. -/
theorem postOrderRun_tree (s : S) (t : Tree) (fuel : Nat) (hok : TreeOK s t)
    (hnd : t.ids.Nodup) (hfuel : 2 * t.size + 1 ≤ fuel) :
    postOrderRun fuel [t.rootId] [] [] s = some t.post := by
  have h := postOrderRun_frames s fuel [Sum.inl t] [] []
    (by intro t' ht'; rw [List.mem_singleton] at ht'; cases Sum.inl.inj ht'; exact hok)
    (by simpa [idsOfFrames] using hnd)
    (by simp)
    (by simp)
    (by simpa [fuelOf] using hfuel)
  simpa [stackOf, outOf] using h

theorem flatten_perm_of_forall (ks : List Tree)
    (h : ∀ k ∈ ks, k.post.Perm k.ids) :
    (ks.map Tree.post).flatten.Perm (ks.map Tree.ids).flatten := by
  induction ks with
  | nil => simp
  | cons k ks ih =>
    simp only [List.map_cons, List.flatten_cons]
    exact (h k (List.mem_cons_self _ _)).append
      (ih fun k' hk' => h k' (List.mem_cons_of_mem _ hk'))

/-- The post-order sequence is a permutation of the subtree's ids. -/
theorem post_perm_ids : ∀ t : Tree, t.post.Perm t.ids := by
  refine tree_ind _ ?_
  intro i ks ihk
  rw [post_node, ids_node]
  exact (List.perm_append_singleton _ _).trans ((flatten_perm_of_forall ks ihk).cons i)

theorem mem_post_iff (t : Tree) (x : EId) : x ∈ t.post ↔ x ∈ t.ids :=
  (post_perm_ids t).mem_iff

theorem rootId_mem_ids (t : Tree) : t.rootId ∈ t.ids := by
  cases t with
  | node i ks => rw [ids_node]; exact List.mem_cons_self _ _

theorem rootId_mem_post (t : Tree) : t.rootId ∈ t.post :=
  (mem_post_iff t _).2 (rootId_mem_ids t)

/-- Each stored child of each subtree node is itself in the subtree and occurs
strictly before its parent in the post-order sequence. -/
theorem post_precedes (s : S) : ∀ t : Tree, TreeOK s t →
    ∀ p c, p ∈ t.ids → c ∈ s.children p → c ∈ t.ids ∧ Precedes t.post c p := by
  refine tree_ind _ ?_
  intro i ks ihk hok p c hp hc
  unfold TreeOK at hok
  obtain ⟨hch, hkids⟩ := hok
  rw [ids_node] at hp
  rcases List.mem_cons.1 hp with rfl | hp'
  · rw [hch] at hc
    obtain ⟨k, hk, rfl⟩ := List.mem_map.1 hc
    constructor
    · rw [ids_node]
      exact List.mem_cons_of_mem _ (List.mem_flatten.2
        ⟨k.ids, List.mem_map_of_mem _ hk, rootId_mem_ids k⟩)
    · refine ⟨(ks.map Tree.post).flatten, [], by rw [post_node], ?_⟩
      exact List.mem_flatten.2 ⟨k.post, List.mem_map_of_mem _ hk, rootId_mem_post k⟩
  · obtain ⟨l, hl, hpl⟩ := List.mem_flatten.1 hp'
    obtain ⟨k, hk, rfl⟩ := List.mem_map.1 hl
    obtain ⟨hcin, l1, l2, hpost, hcl⟩ := ihk k hk (hkids k hk) p c hpl hc
    obtain ⟨ks1, ks2, rfl⟩ := List.append_of_mem hk
    constructor
    · rw [ids_node]
      exact List.mem_cons_of_mem _ (List.mem_flatten.2
        ⟨k.ids, List.mem_map_of_mem _ hk, hcin⟩)
    · refine ⟨(ks1.map Tree.post).flatten ++ l1,
        l2 ++ ((ks2.map Tree.post).flatten ++ [i]), ?_, ?_⟩
      · rw [post_node]
        simp only [List.map_append, List.map_cons, List.flatten_append,
          List.flatten_cons, hpost]
        simp [List.append_assoc]
      · simp [hcl]

/-- In a duplicate-free sequence, if `c` precedes `p` and `c` is in the right
part of a split, so is `p`. -/
theorem mem_right_of_precedes {l l1 l2 : List EId} {c p : EId} (hnd : l.Nodup)
    (hprec : Precedes l c p) (hsplit : l = l1 ++ l2) (hc : c ∈ l2) : p ∈ l2 := by
  obtain ⟨m1, m2, hm, hcm⟩ := hprec
  rw [hsplit] at hm hnd
  rcases List.append_eq_append_iff.1 hm.symm with ⟨a', hl1, _⟩ | ⟨c', _, hd⟩
  · -- the split point is at or after `p`: `c ∈ m1 ⊆ l1` contradicts `c ∈ l2`
    exfalso
    have hcl1 : c ∈ l1 := by
      rw [hl1]
      exact List.mem_append_left _ hcm
    exact (List.disjoint_of_nodup_append hnd) hcl1 hc
  · -- the split point is inside `m1`: `l2` ends in `p :: m2`
    rw [hd]
    exact List.mem_append_right _ (List.mem_cons_self _ _)

/-- Folding plain row destruction over a sequence invalidates exactly the
sequence members. -/
theorem destroyFold_mem_valid : ∀ (seq : List EId) (st : S) (x : EId),
    x ∈ (seq.foldl (fun acc y => destroyEntity y acc) st).valid ↔
      x ∈ st.valid ∧ x ∉ seq := by
  intro seq
  induction seq with
  | nil => intro st x; simp
  | cons y seq ih =>
    intro st x
    have hd : x ∈ (destroyEntity y st).valid ↔ (x ∈ st.valid ∧ x ≠ y) := by
      unfold destroyEntity
      split_ifs with hy
      · simp [List.mem_filter]
      · constructor
        · intro hx
          exact ⟨hx, fun hxy => hy (hxy ▸ hx)⟩
        · exact fun hx => hx.1
    simp only [List.foldl_cons, ih, hd, List.mem_cons, not_or]
    tauto

/-- In a stored subtree, every non-root node's parent pointer goes to a node
of the subtree whose children list contains it. -/
theorem tree_parent_lookup (s : S) : ∀ t : Tree, TreeOK s t → TreeParentOK s t →
    ∀ x ∈ t.ids, x ≠ t.rootId →
      ∃ q, s.parent x = some q ∧ x ∈ s.children q ∧ q ∈ t.ids := by
  refine tree_ind _ ?_
  intro i ks ihk hok hpar x hx hxr
  unfold TreeOK at hok
  obtain ⟨hch, hkids⟩ := hok
  unfold TreeParentOK at hpar
  rw [ids_node] at hx
  rcases List.mem_cons.1 hx with rfl | hx'
  · exact absurd rfl hxr
  · obtain ⟨l, hl, hxl⟩ := List.mem_flatten.1 hx'
    obtain ⟨k, hk, rfl⟩ := List.mem_map.1 hl
    obtain ⟨hpk, hpark⟩ := hpar k hk
    by_cases hxk : x = k.rootId
    · subst hxk
      refine ⟨i, hpk, ?_, ?_⟩
      · rw [hch]
        exact List.mem_map_of_mem _ hk
      · rw [ids_node]
        exact List.mem_cons_self _ _
    · obtain ⟨q, h1, h2, h3⟩ := ihk k hk (hkids k hk) hpark x hxl hxk
      refine ⟨q, h1, h2, ?_⟩
      rw [ids_node]
      exact List.mem_cons_of_mem _
        (List.mem_flatten.2 ⟨k.ids, List.mem_map_of_mem _ hk, h3⟩)

/-- The destruction loop body: the attempted root detach
(`TrySetParent(nullptr)`) is a no-op, leaving plain row destruction. -/
theorem cleanup_fold_eq (n : Nat) (r : EId) : ∀ (seq : List EId) (st : S),
    (seq.foldl (fun st x =>
      let st1 :=
        if x = r then
          match trySetParent n x none st with
          | some r' => r'.2
          | none => st
        else st
      destroyEntity x st1) st) =
      seq.foldl (fun acc y => destroyEntity y acc) st := by
  intro seq
  induction seq with
  | nil => intro st; rfl
  | cons y seq ih =>
    intro st
    simp only [List.foldl_cons]
    have hb : (if y = r then
        match trySetParent n y none st with
        | some r' => r'.2
        | none => st
      else st) = st := by
      split <;> rfl
    rw [hb]
    exact ih _

theorem cleanupRoot_eq (n : Nat) (r : EId) (s : S) (hr : r ∈ s.valid)
    (seq : List EId) (hrun : postOrderRun n [r] [] [] s = some seq) :
    cleanupRoot n r s = some (seq.foldl (fun acc y => destroyEntity y acc) s) := by
  unfold cleanupRoot
  rw [if_neg (by simpa using hr), hrun]
  dsimp only
  rw [cleanup_fold_eq]

/-- An empty destruction queue makes `ProcessEntityCleanup` a no-op. -/
theorem processEntityCleanup_nil (n : Nat) (s : S) (h : s.tags = []) :
    processEntityCleanup n s = some s := by
  unfold processEntityCleanup
  rw [h]
  rfl

theorem processEntityCleanup_single (n : Nat) (r : EId) (s : S)
    (htags : s.tags = [r]) : processEntityCleanup n s = cleanupRoot n r s := by
  unfold processEntityCleanup
  rw [htags]
  cases h : cleanupRoot n r s <;> simp [h, List.foldlM]

/-- **C4.** If the root of an `n`-entity stored subtree carries `DestroyTag`
(and nothing else does), one `Scene::ProcessEntityCleanup` call completes and
invalidates exactly the subtree's rows; the destruction order is the
post-order sequence, in which every stored child precedes its parent, so at
every intermediate point of the pass the subtree rows not yet erased have
parent links only to rows not yet erased; and a call with an empty destruction
queue changes nothing. -/
theorem c4_cascade_destruction (s : S) (t : Tree) (fuel : Nat)
    (hok : TreeOK s t) (hpar : TreeParentOK s t)
    (hroot : ∀ p, s.parent t.rootId = some p → p ∉ t.ids)
    (hnd : t.ids.Nodup)
    (hvalid : ∀ x ∈ t.ids, x ∈ s.valid)
    (htags : s.tags = [t.rootId])
    (hfuel : 2 * t.size + 1 ≤ fuel) :
    (∃ s', processEntityCleanup fuel s = some s' ∧
        (∀ x ∈ t.ids, x ∉ s'.valid) ∧
        (∀ x, x ∉ t.ids → (x ∈ s'.valid ↔ x ∈ s.valid))) ∧
      postOrderRun fuel [t.rootId] [] [] s = some t.post ∧
      (∀ p ∈ t.ids, ∀ c ∈ s.children p, c ∈ t.ids ∧ Precedes t.post c p) ∧
      (∀ l1 l2, t.post = l1 ++ l2 → ∀ x ∈ l2, ∀ p, s.parent x = some p →
        p ∈ t.ids → p ∈ l2) ∧
      (∀ s₀ : S, s₀.tags = [] → processEntityCleanup fuel s₀ = some s₀) := by
  have hrun := postOrderRun_tree s t fuel hok hnd hfuel
  have hndpost : t.post.Nodup := ((post_perm_ids t).nodup_iff).2 hnd
  refine ⟨?_, hrun, ?_, ?_, fun s₀ h₀ => processEntityCleanup_nil fuel s₀ h₀⟩
  · refine ⟨t.post.foldl (fun acc y => destroyEntity y acc) s, ?_, ?_, ?_⟩
    · rw [processEntityCleanup_single fuel t.rootId s htags,
        cleanupRoot_eq fuel t.rootId s (hvalid _ (rootId_mem_ids t)) t.post hrun]
    · intro x hx
      rw [destroyFold_mem_valid]
      rintro ⟨-, hns⟩
      exact hns ((mem_post_iff t x).2 hx)
    · intro x hx
      rw [destroyFold_mem_valid]
      constructor
      · exact fun h => h.1
      · exact fun h => ⟨h, fun hmem => hx ((mem_post_iff t x).1 hmem)⟩
  · intro p hp c hc
    exact post_precedes s t hok p c hp hc
  · intro l1 l2 hsplit x hx p hpx hpids
    have hxpost : x ∈ t.post := hsplit ▸ List.mem_append_right _ hx
    have hxids : x ∈ t.ids := (mem_post_iff t x).1 hxpost
    by_cases hxr : x = t.rootId
    · exact absurd hpids (hroot p (hxr ▸ hpx))
    · obtain ⟨q, hq1, hq2, hq3⟩ := tree_parent_lookup s t hok hpar x hxids hxr
      have hqp : some p = some q := hpx.symm.trans hq1
      cases Option.some.inj hqp
      have hprec := (post_precedes s t hok p x hpids hq2).2
      exact mem_right_of_precedes hndpost hprec hsplit hx

theorem t7_ids_eq : t7.ids = [1, 2, 4, 5, 3, 6, 7] := by
  simp [t7]

theorem t7_treeOK : TreeOK c4s t7 := by
  simp only [t7, TreeOK, List.forall_mem_cons, List.map_cons, List.map_nil, Tree.rootId]
  exact ⟨rfl, ⟨rfl, ⟨rfl, List.forall_mem_nil _⟩, ⟨rfl, List.forall_mem_nil _⟩,
      List.forall_mem_nil _⟩,
    ⟨rfl, ⟨rfl, List.forall_mem_nil _⟩, ⟨rfl, List.forall_mem_nil _⟩,
      List.forall_mem_nil _⟩, List.forall_mem_nil _⟩

theorem t7_treeParentOK : TreeParentOK c4s t7 := by
  simp only [t7, TreeParentOK, List.forall_mem_cons, Tree.rootId]
  exact ⟨⟨rfl, ⟨rfl, List.forall_mem_nil _⟩, ⟨rfl, List.forall_mem_nil _⟩,
      List.forall_mem_nil _⟩,
    ⟨rfl, ⟨rfl, List.forall_mem_nil _⟩, ⟨rfl, List.forall_mem_nil _⟩,
      List.forall_mem_nil _⟩, List.forall_mem_nil _⟩

/-- **C4 witness**: the spec's seven-node cascade scenario — root 1 marked,
one cleanup pass with fuel 20. -/
theorem c4_cascade_destruction_witness :
    TreeOK c4s t7 ∧ t7.ids.Nodup ∧ c4s.tags = [t7.rootId] ∧
      ((∃ s', processEntityCleanup 20 c4s = some s' ∧
          (∀ x ∈ t7.ids, x ∉ s'.valid) ∧
          (∀ x, x ∉ t7.ids → (x ∈ s'.valid ↔ x ∈ c4s.valid))) ∧
        postOrderRun 20 [t7.rootId] [] [] c4s = some t7.post ∧
        (∀ p ∈ t7.ids, ∀ c ∈ c4s.children p, c ∈ t7.ids ∧ Precedes t7.post c p) ∧
        (∀ l1 l2, t7.post = l1 ++ l2 → ∀ x ∈ l2, ∀ p, c4s.parent x = some p →
          p ∈ t7.ids → p ∈ l2) ∧
        (∀ s₀ : S, s₀.tags = [] → processEntityCleanup 20 s₀ = some s₀)) :=
  ⟨t7_treeOK, by rw [t7_ids_eq]; decide, rfl,
    c4_cascade_destruction c4s t7 20 t7_treeOK t7_treeParentOK
      (fun p h => Option.noConfusion h)
      (by rw [t7_ids_eq]; decide)
      (by rw [t7_ids_eq]; decide)
      rfl
      (by simp [t7])⟩

/-! ### C6 — dirty-flag propagation and cached matrix correctness -/

/-- Reachability only reads children lists and validity. -/
theorem reach_congr {s s' : S} (hch : s'.children = s.children)
    (hv : s'.valid = s.valid) {e x : EId} (h : Reach s e x) : Reach s' e x := by
  induction h with
  | refl e => exact Reach.refl e
  | head hc hv' _ ih => exact Reach.head (hch ▸ hc) (hv ▸ hv') ih

/-- Reachability extends along one more valid-child step at the bottom. -/
theorem reach_tail {s : S} {e y c : EId} (h : Reach s e y)
    (hc : c ∈ s.children y) (hv : c ∈ s.valid) : Reach s e c := by
  induction h with
  | refl e => exact Reach.head hc hv (Reach.refl c)
  | head hc' hv' _ ih => exact Reach.head hc' hv' (ih hc)

/-- Prepending one parent step to an ancestor chain. -/
theorem isAnc_extend {s : S} {c x e : EId} (h : IsAnc s c x)
    (hp : s.parent c = some e) : IsAnc s e x := by
  induction h with
  | base hx => exact IsAnc.step hx (IsAnc.base hp)
  | step hx _ ih => exact IsAnc.step hx ih

/-- With consistent back-pointers, one scene and valid parent chains, an
ancestor reaches its descendants through children lists. -/
theorem isAnc_to_reach {s : S} (hB : Bidir s) (hpv : ParentsValid s)
    (hsc : ∀ x y : EId, s.sceneOf x = s.sceneOf y) {e x : EId}
    (hx : x ∈ s.valid) (h : IsAnc s e x) : Reach s e x := by
  induction h with
  | base hp =>
    rename_i d
    have he : e ∈ s.valid := hpv d hx e hp
    exact Reach.head ((hB d hx e he (hsc d e)).1 hp) hx (Reach.refl d)
  | step hp hanc ih =>
    rename_i d m
    have hm : m ∈ s.valid := hpv d hx m hp
    exact reach_tail (ih hm) ((hB d hx m hm (hsc d m)).1 hp) hx

/-- Conversely, a reached node is the start itself or has it as ancestor. -/
theorem reach_to_anc {s : S} (hB : Bidir s)
    (hsc : ∀ x y : EId, s.sceneOf x = s.sceneOf y) :
    ∀ {e x : EId}, e ∈ s.valid → Reach s e x → x = e ∨ IsAnc s e x := by
  intro e x he h
  induction h with
  | refl e => exact Or.inl rfl
  | head hc hv hr ih =>
    rename_i e' c' x'
    have hpc : s.parent c' = some e' := (hB c' hv e' he (hsc c' e')).2 hc
    rcases ih hv with rfl | hanc
    · exact Or.inr (IsAnc.base hpc)
    · exact Or.inr (isAnc_extend hanc hpc)

/-- Predicate preservation through the `SetWorldDirty` child loop. -/
theorem swdKids_pred (P : S → Prop) (f : EId → S → Option S)
    (hf : ∀ c t t', f c t = some t' → P t → P t') :
    ∀ (cs : List EId) (t t' : S), swdKids f cs t = some t' → P t → P t' := by
  intro cs
  induction cs with
  | nil => intro t t' h hP; cases h; exact hP
  | cons c cs ih =>
    intro t t' h hP
    unfold swdKids at h
    by_cases hc : c ∈ t.valid
    · rw [if_pos hc] at h
      cases hfc : f c t with
      | none => rw [hfc] at h; cases h
      | some t1 =>
        rw [hfc] at h
        exact ih t1 t' h (hf c t t1 hfc hP)
    · rw [if_neg hc] at h
      exact ih t t' h hP

/-- `SetWorldDirty` never clears a world-dirty flag. -/
theorem swd_dirty_mono : ∀ (n : Nat) (e : EId) (s s' : S) (x : EId),
    setWorldDirty n e s = some s' → s.worldDirty x = true → s'.worldDirty x = true := by
  intro n
  induction n with
  | zero => intro e s s' x h; cases h
  | succ n ih =>
    intro e s s' x h hx
    unfold setWorldDirty at h
    dsimp only at h
    refine swdKids_pred (fun t => t.worldDirty x = true) (setWorldDirty n)
      (fun c t t' hc hP => ih c t t' x hc hP) _ _ _ h ?_
    show upd s.worldDirty e true x = true
    unfold upd
    split <;> simp [hx]

/-- A completed `SetWorldDirty` marks every reachable node. -/
theorem swd_dirty_reach : ∀ (n : Nat) (e : EId) (s s' : S),
    setWorldDirty n e s = some s' →
      ∀ x, Reach s e x → s'.worldDirty x = true := by
  intro n
  induction n with
  | zero => intro e s s' h; cases h
  | succ n ih =>
    intro e s s' h x hr
    unfold setWorldDirty at h
    dsimp only at h
    set s1 : S := { s with worldDirty := upd s.worldDirty e true } with hs1
    cases hr with
    | refl =>
      refine swdKids_pred (fun t => t.worldDirty e = true) (setWorldDirty n)
        (fun c t t' hc hP => swd_dirty_mono n c t t' e hc hP) _ _ _ h ?_
      show upd s.worldDirty e true e = true
      simp [upd]
    | head hc hv hrest =>
      rename_i c
      -- walk the child loop to the entry of `c`
      clear hs1
      have hlist : ∀ (cs : List EId) (t t' : S), swdKids (setWorldDirty n) cs t = some t' →
          t.children = s.children → t.valid = s.valid →
          c ∈ cs → ∀ y, Reach s c y → t'.worldDirty y = true := by
        intro cs
        induction cs with
        | nil => intro t t' _ _ _ hin; cases hin
        | cons c0 cs ihcs =>
          intro t t' hrun hch hv' hin y hry
          unfold swdKids at hrun
          by_cases hc0 : c0 ∈ t.valid
          · rw [if_pos hc0] at hrun
            cases hfc : setWorldDirty n c0 t with
            | none => rw [hfc] at hrun; cases hrun
            | some t1 =>
              rw [hfc] at hrun
              rcases List.mem_cons.1 hin with rfl | hin'
              · have ht1 : t1.worldDirty y = true :=
                  ih c t t1 hfc y (reach_congr hch hv' hry)
                exact swdKids_pred (fun u => u.worldDirty y = true) (setWorldDirty n)
                  (fun c2 u u' hc2 hP => swd_dirty_mono n c2 u u' y hc2 hP) _ _ _ hrun ht1
              · have hnw := swd_nonW n c0 t t1 hfc
                exact ihcs t1 t' hrun (hnw.2.2.2.1.trans hch) (hnw.1.trans hv') hin' y hry
          · rw [if_neg hc0] at hrun
            rcases List.mem_cons.1 hin with rfl | hin'
            · exact absurd (hv' ▸ hv) hc0
            · exact ihcs t t' hrun hch hv' hin' y hry
      exact hlist _ _ _ h rfl rfl hc x hrest

/-- A completed `SetWorldDirty` marks only previously dirty or reachable
nodes. -/
theorem swd_dirty_only : ∀ (n : Nat) (e : EId) (s s' : S),
    setWorldDirty n e s = some s' →
      ∀ x, s'.worldDirty x = true → s.worldDirty x = true ∨ Reach s e x := by
  intro n
  induction n with
  | zero => intro e s s' h; cases h
  | succ n ih =>
    intro e s s' h x hx
    unfold setWorldDirty at h
    dsimp only at h
    have hlist : ∀ (cs : List EId) (t t' : S), swdKids (setWorldDirty n) cs t = some t' →
        t.children = s.children → t.valid = s.valid →
        t'.worldDirty x = true →
        t.worldDirty x = true ∨ ∃ c ∈ cs, c ∈ s.valid ∧ Reach s c x := by
      intro cs
      induction cs with
      | nil => intro t t' hrun _ _ hx'; cases hrun; exact Or.inl hx'
      | cons c0 cs ihcs =>
        intro t t' hrun hch hv' hx'
        unfold swdKids at hrun
        by_cases hc0 : c0 ∈ t.valid
        · rw [if_pos hc0] at hrun
          cases hfc : setWorldDirty n c0 t with
          | none => rw [hfc] at hrun; cases hrun
          | some t1 =>
            rw [hfc] at hrun
            have hnw := swd_nonW n c0 t t1 hfc
            rcases ihcs t1 t' hrun (hnw.2.2.2.1.trans hch) (hnw.1.trans hv') hx' with h1 | h1
            · rcases ih c0 t t1 hfc x h1 with h2 | h2
              · exact Or.inl h2
              · exact Or.inr ⟨c0, List.mem_cons_self _ _, hv' ▸ hc0,
                  reach_congr hch.symm hv'.symm h2⟩
            · obtain ⟨c, hcin, hcv, hcr⟩ := h1
              exact Or.inr ⟨c, List.mem_cons_of_mem _ hcin, hcv, hcr⟩
        · rw [if_neg hc0] at hrun
          rcases ihcs t t' hrun hch hv' hx' with h1 | h1
          · exact Or.inl h1
          · obtain ⟨c, hcin, hcv, hcr⟩ := h1
            exact Or.inr ⟨c, List.mem_cons_of_mem _ hcin, hcv, hcr⟩
    rcases hlist _ _ _ h rfl rfl hx with h1 | h1
    · show _ ∨ _
      by_cases hxe : x = e
      · exact Or.inr (by rw [hxe]; exact Reach.refl e)
      · left
        have : upd s.worldDirty e true x = true := h1
        rwa [upd_other _ _ _ _ hxe] at this
    · obtain ⟨c, hcin, hcv, hcr⟩ := h1
      exact Or.inr (Reach.head hcin hcv hcr)

/-- Effect of a completed `SetDirty`: the model flag of the target set, the
world flags of exactly the reachable set added, nothing else touched. -/
theorem setDirty_spec (n : Nat) (e : EId) (s s' : S) (h : setDirty n e s = some s') :
    s'.valid = s.valid ∧ s'.sceneOf = s.sceneOf ∧ s'.parent = s.parent ∧
      s'.children = s.children ∧ s'.pos = s.pos ∧ s'.scale = s.scale ∧
      s'.rot = s.rot ∧ s'.cachedModel = s.cachedModel ∧
      s'.cachedWorld = s.cachedWorld ∧ s'.tags = s.tags ∧
      (∀ x, s'.modelDirty x = if x = e then true else s.modelDirty x) ∧
      (∀ x, s'.worldDirty x = true ↔ (s.worldDirty x = true ∨ Reach s e x)) := by
  unfold setDirty at h
  set sM : S := { s with modelDirty := upd s.modelDirty e true } with hsM
  have hnw := swd_nonW n e sM s' h
  obtain ⟨h1, h2, h3, h4, h5, h6, h7, h8, h9, h10, h11⟩ := hnw
  refine ⟨h1, h2, h3, h4, h5, h6, h7, ?_, h10, h11, ?_, ?_⟩
  · exact h9
  · intro x
    rw [h8]
    rfl
  · intro x
    constructor
    · intro hx
      rcases swd_dirty_only n e sM s' h x hx with h' | h'
      · exact Or.inl h'
      · exact Or.inr (@reach_congr sM s rfl rfl e x h')
    · rintro (hx | hx)
      · exact swd_dirty_mono n e sM s' x h hx
      · exact swd_dirty_reach n e sM s' h x (@reach_congr s sM rfl rfl e x hx)

/-- `trueWorld` only reads parent links and the local TRS fields. -/
theorem trueWorld_congr {s s' : S} (hpar : s'.parent = s.parent)
    (hpos : s'.pos = s.pos) (hscale : s'.scale = s.scale) (hrot : s'.rot = s.rot) :
    ∀ (f : Nat) (x : EId), trueWorld f x s' = trueWorld f x s := by
  intro f
  induction f with
  | zero => intro x; rfl
  | succ f ih =>
    intro x
    show trueWorld (f + 1) x s' = trueWorld (f + 1) x s
    unfold trueWorld
    rw [hpar]
    have hcm : calcModel x s' = calcModel x s := by
      unfold calcModel
      rw [hpos, hscale, hrot]
    cases s.parent x with
    | none => simp [hcm]
    | some p => simp [ih p, hcm]

/-- `trueWorld` of a node ignores a TRS change at an entity that is neither
the node nor one of its ancestors. -/
theorem trueWorld_congr_off {s s' : S} (e : EId) (hpar : s'.parent = s.parent)
    (hpos : ∀ y, y ≠ e → s'.pos y = s.pos y)
    (hscale : ∀ y, y ≠ e → s'.scale y = s.scale y)
    (hrot : ∀ y, y ≠ e → s'.rot y = s.rot y) :
    ∀ (f : Nat) (x : EId), x ≠ e → ¬IsAnc s e x → trueWorld f x s' = trueWorld f x s := by
  intro f
  induction f with
  | zero => intro x _ _; rfl
  | succ f ih =>
    intro x hxe hanc
    unfold trueWorld
    rw [hpar]
    have hcm : calcModel x s' = calcModel x s := by
      unfold calcModel
      rw [hpos x hxe, hscale x hxe, hrot x hxe]
    cases hp : s.parent x with
    | none => simp [hcm]
    | some p =>
      have hpe : p ≠ e := fun hh => hanc (hh ▸ IsAnc.base hp)
      have hpanc : ¬IsAnc s e p := fun hh => hanc (IsAnc.step hp hh)
      simp [ih p hpe hpanc, hcm]

/-- `trueWorld` terminates on rank-bounded fuel. -/
theorem trueWorld_total {s : S} {rank : EId → Nat} (hr : RankedV s rank)
    (hpv : ParentsValid s) :
    ∀ (f : Nat) (x : EId), x ∈ s.valid → rank x < f → ∃ w, trueWorld f x s = some w := by
  intro f
  induction f with
  | zero => intro x _ hf; omega
  | succ f ih =>
    intro x hx hf
    unfold trueWorld
    cases hp : s.parent x with
    | none => exact ⟨_, rfl⟩
    | some p =>
      have hpval : p ∈ s.valid := hpv x hx p hp
      have hrank : rank p < f := by
        have := hr x hx p hp
        omega
      obtain ⟨w, hw⟩ := ih p hpval hrank
      refine ⟨w.mul (calcModel x s), ?_⟩
      show Option.map (fun pw => pw.mul (calcModel x s)) (trueWorld f p s) =
        some (w.mul (calcModel x s))
      rw [hw]
      rfl

/-- Adding fuel does not change a successful `trueWorld`. -/
theorem trueWorld_mono : ∀ (f : Nat) (x : EId) (s : S) (w : Mat4),
    trueWorld f x s = some w → trueWorld (f + 1) x s = some w := by
  intro f
  induction f with
  | zero => intro x s w h; cases h
  | succ f ih =>
    intro x s w h
    unfold trueWorld at h ⊢
    cases hp : s.parent x with
    | none =>
      rw [hp] at h
      dsimp only at h ⊢
      exact h
    | some p =>
      rw [hp] at h
      dsimp only at h ⊢
      cases hw : trueWorld f p s with
      | none => rw [hw] at h; cases h
      | some pw =>
        rw [hw] at h
        rw [ih p s pw hw]
        exact h

theorem trueWorld_ge {f g : Nat} {x : EId} {s : S} {w : Mat4} (hfg : f ≤ g)
    (h : trueWorld f x s = some w) : trueWorld g x s = some w := by
  induction g with
  | zero =>
    have : f = 0 := Nat.le_zero.1 hfg
    exact this ▸ h
  | succ g ih =>
    rcases Nat.lt_or_ge f (g + 1) with hlt | hge
    · exact trueWorld_mono g x s w (ih (Nat.lt_succ_iff.1 hlt))
    · have : f = g + 1 := le_antisymm hfg hge
      exact this ▸ h

theorem trueWorld_unique {f g : Nat} {x : EId} {s : S} {w w' : Mat4}
    (h1 : trueWorld f x s = some w) (h2 : trueWorld g x s = some w') : w = w' := by
  rcases le_total f g with hle | hle
  · have := trueWorld_ge hle h1
    rw [this] at h2
    exact Option.some.inj h2
  · have := trueWorld_ge hle h2
    rw [this] at h1
    exact (Option.some.inj h1).symm

/-- With a correct model cache, `GetModelMatrix` returns the recomputed TRS
matrix (from the cache when clean, freshly when dirty). -/
theorem getModel_fst (e : EId) (s : S) (he : e ∈ s.valid) (hm : CacheM s) :
    (getModelMatrix e s).1 = calcModel e s := by
  unfold getModelMatrix
  split_ifs with h
  · rfl
  · exact hm e he (by simpa using h)

theorem getModel_snd_fields (e : EId) (s : S) :
    (getModelMatrix e s).2.valid = s.valid ∧ (getModelMatrix e s).2.sceneOf = s.sceneOf ∧
      (getModelMatrix e s).2.parent = s.parent ∧
      (getModelMatrix e s).2.children = s.children ∧
      (getModelMatrix e s).2.pos = s.pos ∧ (getModelMatrix e s).2.scale = s.scale ∧
      (getModelMatrix e s).2.rot = s.rot ∧
      (getModelMatrix e s).2.worldDirty = s.worldDirty ∧
      (getModelMatrix e s).2.cachedWorld = s.cachedWorld ∧
      (getModelMatrix e s).2.tags = s.tags := by
  unfold getModelMatrix
  split_ifs <;> exact ⟨rfl, rfl, rfl, rfl, rfl, rfl, rfl, rfl, rfl, rfl⟩

theorem getModel_cacheM (e : EId) (s : S) (he : e ∈ s.valid) (hm : CacheM s) :
    CacheM (getModelMatrix e s).2 := by
  unfold getModelMatrix
  split_ifs with h
  · intro x hx hclean
    show upd s.cachedModel e (calcModel e s) x = _
    by_cases hxe : x = e
    · subst hxe
      rw [upd_same]
      rfl
    · rw [upd_other _ _ _ _ hxe]
      have hclean' : s.modelDirty x = false := by
        have : upd s.modelDirty e false x = false := hclean
        rwa [upd_other _ _ _ _ hxe] at this
      exact hm x hx hclean'
  · exact hm

/-- Correctness of `GetWorldMatrix` on a cache-consistent state: it completes
with rank-bounded fuel, returns exactly the recomputed world composition, and
leaves a cache-consistent state with untouched structure, TRS data and tags. -/
theorem getWorld_correct (rank : EId → Nat) :
    ∀ (f : Nat) (e : EId) (s : S),
      RankedV s rank → ParentsValid s → CacheM s → CacheW s rank →
      e ∈ s.valid → rank e < f →
      ∃ w s', getWorldMatrix f e s = some (w, s') ∧ trueWorld f e s = some w ∧
        s'.valid = s.valid ∧ s'.sceneOf = s.sceneOf ∧ s'.parent = s.parent ∧
        s'.children = s.children ∧ s'.pos = s.pos ∧ s'.scale = s.scale ∧
        s'.rot = s.rot ∧ s'.tags = s.tags ∧ CacheM s' ∧ CacheW s' rank := by
  intro f
  induction f with
  | zero => intro e s _ _ _ _ _ hf; omega
  | succ f ih =>
    intro e s hr hpv hm hw he hf
    unfold getWorldMatrix
    by_cases hd : s.worldDirty e = true
    case neg =>
      rw [if_neg hd]
      have hdf : s.worldDirty e = false := by simpa using hd
      exact ⟨s.cachedWorld e, s, rfl, trueWorld_ge (by omega) (hw e he hdf),
        rfl, rfl, rfl, rfl, rfl, rfl, rfl, rfl, hm, hw⟩
    case pos =>
      rw [if_pos hd]
      cases hp : s.parent e with
      | none =>
        cases hgm : getModelMatrix e s with
        | mk m s1 =>
          have hfst : m = calcModel e s := by
            have := getModel_fst e s he hm
            rwa [hgm] at this
          have hsnd := getModel_snd_fields e s
          rw [hgm] at hsnd
          obtain ⟨hv1, hv2, hv3, hv4, hv5, hv6, hv7, hv8, hv9, hv10⟩ := hsnd
          have hmC : CacheM s1 := by
            have := getModel_cacheM e s he hm
            rwa [hgm] at this
          refine ⟨m, _, rfl, ?_, hv1, hv2, hv3, hv4, hv5, hv6, hv7, hv10, hmC, ?_⟩
          · unfold trueWorld
            rw [hp, hfst]
          · -- CacheW of the written state
            intro x hx hcl
            have hcongr := @trueWorld_congr s
              { s1 with cachedWorld := upd s1.cachedWorld e m, worldDirty := upd s1.worldDirty e false }
              hv3 hv5 hv6 hv7
            by_cases hxe : x = e
            · subst hxe
              rw [hcongr]
              show trueWorld (rank x + 1) x s = some (upd s1.cachedWorld x m x)
              rw [upd_same]
              unfold trueWorld
              rw [hp, hfst]
            · have hclean' : s.worldDirty x = false := by
                have h1 : upd s1.worldDirty e false x = false := hcl
                rw [upd_other _ _ _ _ hxe] at h1
                rwa [hv8] at h1
              have hx' : x ∈ s.valid := hv1 ▸ hx
              rw [hcongr]
              show trueWorld (rank x + 1) x s = some (upd s1.cachedWorld e m x)
              rw [upd_other _ _ _ _ hxe, hv9]
              exact hw x hx' hclean'
      | some p =>
        have hpe : p ∈ s.valid := hpv e he p hp
        have hrank : rank p < f := by
          have := hr e he p hp
          omega
        obtain ⟨pw, s1, hgw, htw, hw1, hw2, hw3, hw4, hw5, hw6, hw7, hw8, hmC1, hwC1⟩ :=
          ih p s hr hpv hm hw hpe hrank
        dsimp only
        rw [hgw]
        dsimp only
        cases hgm : getModelMatrix e s1 with
        | mk m s2 =>
          have hfst : m = calcModel e s := by
            have h1 := getModel_fst e s1 (hw1 ▸ he) hmC1
            rw [hgm] at h1
            have h2 : m = calcModel e s1 := h1
            rw [h2]
            unfold calcModel
            rw [hw5, hw6, hw7]
          have hsnd := getModel_snd_fields e s1
          rw [hgm] at hsnd
          obtain ⟨hv1, hv2, hv3, hv4, hv5, hv6, hv7, hv8, hv9, hv10⟩ := hsnd
          have hmC2 : CacheM s2 := by
            have := getModel_cacheM e s1 (hw1 ▸ he) hmC1
            rwa [hgm] at this
          refine ⟨Mat4.mul pw m, _, rfl, ?_, hv1.trans hw1, hv2.trans hw2,
            hv3.trans hw3, hv4.trans hw4, hv5.trans hw5, hv6.trans hw6,
            hv7.trans hw7, hv10.trans hw8, hmC2, ?_⟩
          · unfold trueWorld
            rw [hp]
            dsimp only
            rw [htw, hfst]
            rfl
          · intro x hx hcl
            have hcongr := @trueWorld_congr s
              { s2 with cachedWorld := upd s2.cachedWorld e (Mat4.mul pw m), worldDirty := upd s2.worldDirty e false }
              (hv3.trans hw3) (hv5.trans hw5) (hv6.trans hw6) (hv7.trans hw7)
            by_cases hxe : x = e
            · subst hxe
              rw [hcongr]
              show trueWorld (rank x + 1) x s = some (upd s2.cachedWorld x (Mat4.mul pw m) x)
              rw [upd_same]
              unfold trueWorld
              rw [hp]
              dsimp only
              have hrankp : rank p < rank x := hr x (hv1.trans hw1 ▸ hx) p hp
              obtain ⟨pw', hpw'⟩ := trueWorld_total hr hpv (rank x) p hpe hrankp
              rw [hpw']
              have : pw' = pw := trueWorld_unique hpw' htw
              rw [this, hfst]
              rfl
            · have hclean' : s1.worldDirty x = false := by
                have h1 : upd s2.worldDirty e false x = false := hcl
                rw [upd_other _ _ _ _ hxe] at h1
                rwa [hv8] at h1
              have hx1 : x ∈ s1.valid := hv1 ▸ hx
              rw [hcongr]
              show trueWorld (rank x + 1) x s = some (upd s2.cachedWorld e (Mat4.mul pw m) x)
              rw [upd_other _ _ _ _ hxe, hv9]
              have := hwC1 x hx1 hclean'
              rwa [@trueWorld_congr s s1 hw3 hw5 hw6 hw7] at this

/-- Common effect of the three TRS setters: with `sP` the state after the
plain field assignment (TRS changed at most at `e`), a completed `SetDirty`
yields flag updates exactly on `e` (model) and the reachable set (world), and
touches nothing else. -/
theorem setter_spec {fs : Nat} {e : EId} {s sP s1 : S}
    (hP : sP.valid = s.valid ∧ sP.sceneOf = s.sceneOf ∧ sP.parent = s.parent ∧
      sP.children = s.children ∧ sP.modelDirty = s.modelDirty ∧
      sP.worldDirty = s.worldDirty ∧ sP.cachedModel = s.cachedModel ∧
      sP.cachedWorld = s.cachedWorld ∧ sP.tags = s.tags ∧
      (∀ y, y ≠ e → sP.pos y = s.pos y ∧ sP.scale y = s.scale y ∧ sP.rot y = s.rot y))
    (h : setDirty fs e sP = some s1) :
    s1.valid = s.valid ∧ s1.sceneOf = s.sceneOf ∧ s1.parent = s.parent ∧
      s1.children = s.children ∧
      (∀ y, y ≠ e → s1.pos y = s.pos y ∧ s1.scale y = s.scale y ∧ s1.rot y = s.rot y) ∧
      s1.cachedModel = s.cachedModel ∧ s1.cachedWorld = s.cachedWorld ∧
      s1.tags = s.tags ∧
      (∀ x, s1.modelDirty x = if x = e then true else s.modelDirty x) ∧
      (∀ x, s1.worldDirty x = true ↔ (s.worldDirty x = true ∨ Reach s e x)) := by
  obtain ⟨hp1, hp2, hp3, hp4, hp5, hp6, hp7, hp8, hp9, hp10⟩ := hP
  obtain ⟨hs1, hs2, hs3, hs4, hs5, hs6, hs7, hs8, hs9, hs10, hs11, hs12⟩ :=
    setDirty_spec fs e sP s1 h
  refine ⟨hs1.trans hp1, hs2.trans hp2, hs3.trans hp3, hs4.trans hp4, ?_,
    hs8.trans hp7, hs9.trans hp8, hs10.trans hp9, ?_, ?_⟩
  · intro y hy
    rw [hs5, hs6, hs7]
    exact hp10 y hy
  · intro x
    rw [hs11 x, hp5]
  · intro x
    rw [hs12 x, hp6]
    constructor
    · rintro (h' | h')
      · exact Or.inl h'
      · exact Or.inr (@reach_congr sP s hp4.symm hp1.symm e x h')
    · rintro (h' | h')
      · exact Or.inl h'
      · exact Or.inr (@reach_congr s sP hp4 hp1 e x h')

/-- **C6.** On a cache-consistent scene (clean flags mean correct caches,
well-founded valid parent chains, consistent back-pointers, one scene):
(a) `GetModelMatrix`/`GetWorldMatrix` return the cached matrix untouched when
the corresponding flag is clean, and in general return exactly the recomputed
composition — `model = T(pos)·R(rot)·S(scale)` and `world = parent.world ·
model` (`world = model` at a root), as computed by `trueWorld`;
(b) a completed `SetPos`/`SetScale`/`SetRot` on `e` marks the model flag on
`e` alone and the world flag exactly on `e` and its descendants, at mutation
time;
(c) afterwards `GetWorldMatrix` is up to date on `e` and every descendant `d`:
it returns the freshly recomputed world composition of the new state. -/
theorem c6_matrix_caching (s : S) (rank : EId → Nat) (e d : EId) (v u : Vec3)
    (q : Quat) (fs ff : Nat) (s1 : S)
    (hr : RankedV s rank) (hpv : ParentsValid s) (hm : CacheM s)
    (hw : CacheW s rank) (hB : Bidir s)
    (hsc : ∀ x y : EId, s.sceneOf x = s.sceneOf y)
    (he : e ∈ s.valid) (hd : d ∈ s.valid)
    (hdesc : d = e ∨ IsAnc s e d)
    (hset : setPos fs e v s = some s1 ∨ setScale fs e u s = some s1 ∨
      setRot fs e q s = some s1)
    (hf : rank d < ff) :
    (∀ x ∈ s.valid, s.modelDirty x = false → getModelMatrix x s = (s.cachedModel x, s)) ∧
      (∀ x ∈ s.valid, (getModelMatrix x s).1 = calcModel x s) ∧
      (∀ x ∈ s.valid, ∀ g : Nat, s.worldDirty x = false →
        getWorldMatrix (g + 1) x s = some (s.cachedWorld x, s)) ∧
      (∀ x ∈ s.valid, ∀ g : Nat, rank x < g →
        ∃ w s', getWorldMatrix g x s = some (w, s') ∧ trueWorld g x s = some w) ∧
      s1.modelDirty e = true ∧
      (∀ x, x ≠ e → s1.modelDirty x = s.modelDirty x) ∧
      (∀ x ∈ s.valid, (s1.worldDirty x = true ↔
        (s.worldDirty x = true ∨ x = e ∨ IsAnc s e x))) ∧
      (∃ w s2, getWorldMatrix ff d s1 = some (w, s2) ∧ trueWorld ff d s1 = some w) := by
  -- unified setter characterization
  have hchar : s1.valid = s.valid ∧ s1.sceneOf = s.sceneOf ∧ s1.parent = s.parent ∧
      s1.children = s.children ∧
      (∀ y, y ≠ e → s1.pos y = s.pos y ∧ s1.scale y = s.scale y ∧ s1.rot y = s.rot y) ∧
      s1.cachedModel = s.cachedModel ∧ s1.cachedWorld = s.cachedWorld ∧
      s1.tags = s.tags ∧
      (∀ x, s1.modelDirty x = if x = e then true else s.modelDirty x) ∧
      (∀ x, s1.worldDirty x = true ↔ (s.worldDirty x = true ∨ Reach s e x)) := by
    rcases hset with h | h | h
    · refine setter_spec ?_ h
      exact ⟨rfl, rfl, rfl, rfl, rfl, rfl, rfl, rfl, rfl,
        fun y hy => ⟨upd_other _ _ _ _ hy, rfl, rfl⟩⟩
    · refine setter_spec ?_ h
      exact ⟨rfl, rfl, rfl, rfl, rfl, rfl, rfl, rfl, rfl,
        fun y hy => ⟨rfl, upd_other _ _ _ _ hy, rfl⟩⟩
    · refine setter_spec ?_ h
      exact ⟨rfl, rfl, rfl, rfl, rfl, rfl, rfl, rfl, rfl,
        fun y hy => ⟨rfl, rfl, upd_other _ _ _ _ hy⟩⟩
  obtain ⟨hc1, hc2, hc3, hc4, hc5, hc6, hc7, hc8, hc9, hc10⟩ := hchar
  refine ⟨?_, ?_, ?_, ?_, ?_, ?_, ?_, ?_⟩
  · intro x _ hclean
    unfold getModelMatrix
    rw [if_neg (by simp [hclean])]
  · intro x hx
    exact getModel_fst x s hx hm
  · intro x _ g hclean
    unfold getWorldMatrix
    rw [if_neg (by simp [hclean])]
  · intro x hx g hg
    obtain ⟨w, s', h1, h2, -⟩ := getWorld_correct rank g x s hr hpv hm hw hx hg
    exact ⟨w, s', h1, h2⟩
  · rw [hc9 e]
    simp
  · intro x hx
    rw [hc9 x, if_neg hx]
  · intro x hx
    rw [hc10 x]
    constructor
    · rintro (h' | h')
      · exact Or.inl h'
      · exact Or.inr (reach_to_anc hB hsc he h')
    · rintro (h' | h' | h')
      · exact Or.inl h'
      · exact Or.inr (by rw [h']; exact Reach.refl e)
      · exact Or.inr (isAnc_to_reach hB hpv hsc hx h')
  · -- invariants transfer to the post-setter state, then run `GetWorldMatrix`
    have hr1 : RankedV s1 rank := by
      intro x hx p hp
      exact hr x (hc1 ▸ hx) p (hc3 ▸ hp)
    have hpv1 : ParentsValid s1 := by
      intro x hx p hp
      rw [hc1]
      exact hpv x (hc1 ▸ hx) p (hc3 ▸ hp)
    have hm1 : CacheM s1 := by
      intro x hx hclean
      rw [hc9 x] at hclean
      by_cases hxe : x = e
      · rw [if_pos hxe] at hclean
        cases hclean
      · rw [if_neg hxe] at hclean
        obtain ⟨hpy, hsy, hry⟩ := hc5 x hxe
        rw [hc6]
        unfold calcModel
        rw [hpy, hsy, hry]
        exact hm x (hc1 ▸ hx) hclean
    have hw1 : CacheW s1 rank := by
      intro x hx hclean
      have hno : ¬(s.worldDirty x = true ∨ Reach s e x) := by
        intro hcon
        have := (hc10 x).2 hcon
        rw [hclean] at this
        cases this
      have hwd : s.worldDirty x = false := by
        cases hwx : s.worldDirty x with
        | false => rfl
        | true => exact absurd (Or.inl hwx) hno
      have hxe : x ≠ e := by
        rintro rfl
        exact hno (Or.inr (Reach.refl x))
      have hanc : ¬IsAnc s e x := fun hcon =>
        hno (Or.inr (isAnc_to_reach hB hpv hsc (hc1 ▸ hx) hcon))
      have hcg := @trueWorld_congr_off s s1 e hc3
        (fun y hy => (hc5 y hy).1) (fun y hy => (hc5 y hy).2.1)
        (fun y hy => (hc5 y hy).2.2) (rank x + 1) x hxe hanc
      rw [hcg, hc7]
      exact hw x (hc1 ▸ hx) hwd
    obtain ⟨w, s2, h1, h2, -⟩ :=
      getWorld_correct rank ff d s1 hr1 hpv1 hm1 hw1 (hc1 ▸ hd) hf
    exact ⟨w, s2, h1, h2⟩

/-- **C6 witness**: entity 1 (parent of entity 2) gets a new position with
recursion fuel 5; `GetWorldMatrix` with fuel 4 is then up to date on the
descendant entity 2 (rank function: the identity). -/
theorem c6_matrix_caching_witness :
    ∃ s1, setPos 5 1 ⟨1, 2, 3⟩ c1s = some s1 ∧
      ((∀ x ∈ c1s.valid, c1s.modelDirty x = false →
          getModelMatrix x c1s = (c1s.cachedModel x, c1s)) ∧
        (∀ x ∈ c1s.valid, (getModelMatrix x c1s).1 = calcModel x c1s) ∧
        (∀ x ∈ c1s.valid, ∀ g : Nat, c1s.worldDirty x = false →
          getWorldMatrix (g + 1) x c1s = some (c1s.cachedWorld x, c1s)) ∧
        (∀ x ∈ c1s.valid, ∀ g : Nat, x < g →
          ∃ w s', getWorldMatrix g x c1s = some (w, s') ∧ trueWorld g x c1s = some w) ∧
        s1.modelDirty 1 = true ∧
        (∀ x, x ≠ 1 → s1.modelDirty x = c1s.modelDirty x) ∧
        (∀ x ∈ c1s.valid, (s1.worldDirty x = true ↔
          (c1s.worldDirty x = true ∨ x = 1 ∨ IsAnc c1s 1 x))) ∧
        (∃ w s2, getWorldMatrix 4 2 s1 = some (w, s2) ∧ trueWorld 4 2 s1 = some w)) :=
  ⟨_, rfl, c6_matrix_caching c1s (fun x => x) 1 2 ⟨1, 2, 3⟩ ⟨1, 1, 1⟩ ⟨1, 0, 0, 0⟩ 5 4 _
    (by decide) (by decide) (by decide) (by decide) (by decide) (fun x y => rfl)
    (by decide) (by decide) (Or.inr (IsAnc.base rfl)) (Or.inl rfl) (by decide)⟩

end VelecsEcs
